import Mathlib

/-!
Verification of the emme7-bot message-queue core against its specification.

The Python source is shallowly embedded:
* Python `dict`s (insertion-ordered, unique keys) become association lists
  `List (String × V)` with insert-or-update (`ainsert`), lookup (`alookup`)
  and removal (`aerase`); `d[k]` / `d.pop(k)` accesses that may raise
  `KeyError` are modelled in the `Except String` monad (`aget`).
* Unix timestamps (floats in the source) become `Int`: every operation the
  code performs on them is order comparison and subtraction.
* `redis` sorted-set members (serialized JSON byte strings) become `String`.
-/

set_option autoImplicit false

namespace Emme7

/-! ### Association lists standing for Python dicts -/

/-- Lookup (`d.get(k)`; `k in d` is `(alookup d k).isSome`). -/
def alookup {V : Type} : List (String × V) → String → Option V
  | [], _ => none
  | p :: ps, k => if p.1 = k then some p.2 else alookup ps k

/-- Python `d[k] = v`: update in place if the key is present, else append
(Python dicts preserve insertion order). -/
def ainsert {V : Type} : List (String × V) → String → V → List (String × V)
  | [], k, v => [(k, v)]
  | p :: ps, k, v => if p.1 = k then (k, v) :: ps else p :: ainsert ps k v

/-- The removal part of `d.pop(k)` / `del d[k]`. -/
def aerase {V : Type} (m : List (String × V)) (k : String) : List (String × V) :=
  m.filter (fun p => p.1 ≠ k)

/-- Python `d[k]` where the runtime raises `KeyError` when the key is absent. -/
def aget {V : Type} (m : List (String × V)) (k : String) : Except String V :=
  match alookup m k with
  | some v => Except.ok v
  | none => Except.error ("KeyError: " ++ k)

/-- Python dicts cannot hold a key twice. -/
def nodupKeys {V : Type} (m : List (String × V)) : Prop :=
  (m.map Prod.fst).Nodup

instance {V : Type} (m : List (String × V)) : Decidable (nodupKeys m) :=
  inferInstanceAs (Decidable ((m.map Prod.fst).Nodup))

@[simp] theorem exceptBind_ok {ε α β : Type} (a : α) (f : α → Except ε β) :
    (Except.ok a >>= f) = f a := rfl

@[simp] theorem exceptBind_error {ε α β : Type} (e : ε) (f : α → Except ε β) :
    ((Except.error e : Except ε α) >>= f) = Except.error e := rfl

@[simp] theorem alookup_nil {V : Type} (k : String) :
    alookup ([] : List (String × V)) k = none := rfl

@[simp] theorem alookup_cons {V : Type} (p : String × V) (ps : List (String × V))
    (k : String) :
    alookup (p :: ps) k = if p.1 = k then some p.2 else alookup ps k := rfl

theorem alookup_ainsert {V : Type} (m : List (String × V)) (k k' : String) (v : V) :
    alookup (ainsert m k v) k' = if k = k' then some v else alookup m k' := by
  induction m with
  | nil => by_cases h : k = k' <;> simp [ainsert, alookup, h]
  | cons p ps ih =>
    by_cases hp : p.1 = k
    · by_cases h : k = k' <;> simp [ainsert, alookup, hp, h, hp ▸ h]
    · simp only [ainsert, if_neg hp, alookup_cons]
      by_cases hpk : p.1 = k'
      · have : ¬ k = k' := fun he => hp (he ▸ hpk)
        simp [hpk, this]
      · simp [hpk, ih]

@[simp] theorem alookup_ainsert_self {V : Type} (m : List (String × V))
    (k : String) (v : V) : alookup (ainsert m k v) k = some v := by
  simp [alookup_ainsert]

theorem alookup_ainsert_ne {V : Type} (m : List (String × V)) {k k' : String}
    (v : V) (h : k ≠ k') : alookup (ainsert m k v) k' = alookup m k' := by
  simp [alookup_ainsert, h]

theorem alookup_aerase {V : Type} (m : List (String × V)) (k k' : String) :
    alookup (aerase m k) k' = if k = k' then none else alookup m k' := by
  induction m with
  | nil => simp [aerase, alookup]
  | cons p ps ih =>
    simp only [aerase, List.filter_cons] at ih ⊢
    by_cases hp : p.1 = k
    · by_cases h : k = k'
      · simpa [hp, h] using ih
      · have hpk' : p.1 ≠ k' := fun he => h (hp ▸ he ▸ rfl)
        simpa [hp, hpk', h] using ih
    · by_cases hpk' : p.1 = k'
      · by_cases h : k = k'
        · exact absurd (h ▸ hpk') hp
        · have hk'k : k' ≠ k := fun he => h he.symm
          simp [hp, hpk', h, hk'k]
      · simpa [hp, hpk'] using ih

theorem keys_ainsert {V : Type} (m : List (String × V)) (k : String) (v : V) :
    (ainsert m k v).map Prod.fst = m.map Prod.fst ∨
      (ainsert m k v).map Prod.fst = m.map Prod.fst ++ [k] := by
  induction m with
  | nil => right; simp [ainsert]
  | cons p ps ih =>
    by_cases hp : p.1 = k
    · left; simp [ainsert, hp]
    · rcases ih with h | h
      · left; simp [ainsert, hp, h]
      · right; simp [ainsert, hp, h]

theorem nodupKeys_ainsert {V : Type} (m : List (String × V)) (k : String) (v : V)
    (hm : nodupKeys m) : nodupKeys (ainsert m k v) := by
  induction m with
  | nil => simp [ainsert, nodupKeys]
  | cons p ps ih =>
    simp only [nodupKeys, List.map_cons, List.nodup_cons] at hm
    by_cases hp : p.1 = k
    · have he : ainsert (p :: ps) k v = (k, v) :: ps := by simp [ainsert, hp]
      rw [nodupKeys, he, List.map_cons, List.nodup_cons]
      exact ⟨hp ▸ hm.1, hm.2⟩
    · have ihs := ih hm.2
      simp only [nodupKeys, ainsert, if_neg hp, List.map_cons, List.nodup_cons]
      refine ⟨?_, ihs⟩
      rcases keys_ainsert ps k v with h | h
      · rw [h]; exact hm.1
      · rw [h]; simp only [List.mem_append, List.mem_singleton]
        rintro (hmem | rfl)
        · exact hm.1 hmem
        · exact hp rfl

theorem nodupKeys_aerase {V : Type} (m : List (String × V)) (k : String)
    (hm : nodupKeys m) : nodupKeys (aerase m k) := by
  have : (aerase m k).map Prod.fst |>.Sublist (m.map Prod.fst) :=
    List.Sublist.map _ (List.filter_sublist m)
  exact hm.sublist this

theorem alookup_eq_none_iff {V : Type} (m : List (String × V)) (k : String) :
    alookup m k = none ↔ k ∉ m.map Prod.fst := by
  induction m with
  | nil => simp
  | cons p ps ih =>
    by_cases hp : p.1 = k
    · simp [hp]
    · simp only [alookup_cons, if_neg hp, ih, List.map_cons, List.mem_cons]
      constructor
      · rintro hnot (he | hmem)
        · exact hp he.symm
        · exact hnot hmem
      · intro hnot hmem
        exact hnot (Or.inr hmem)

theorem alookup_isSome_of_mem {V : Type} {m : List (String × V)} {p : String × V}
    (h : p ∈ m) : (alookup m p.1).isSome := by
  induction m with
  | nil => simp at h
  | cons q qs ih =>
    rcases List.mem_cons.mp h with rfl | hmem
    · simp
    · by_cases hq : q.1 = p.1
      · simp [hq]
      · simpa [hq] using ih hmem

/-- Loop body `acc.extend(chunk)` repeated is concatenation of the per-element chunks. -/
theorem foldl_append_eq_flatten {α β : Type} (l : List α) (f : α → List β)
    (acc : List β) :
    l.foldl (fun a x => a ++ f x) acc = acc ++ (l.map f).flatten := by
  induction l generalizing acc with
  | nil => simp
  | cons x xs ih => simp [ih, List.append_assoc]

/-- A member of a list of lists occurs contiguously inside the flattening. -/
theorem flatten_mem_contiguous {β : Type} {L : List (List β)} {l : List β}
    (h : l ∈ L) : ∃ pre post, L.flatten = pre ++ l ++ post := by
  induction L with
  | nil => simp at h
  | cons hd tl ih =>
    rcases List.mem_cons.mp h with rfl | hmem
    · exact ⟨[], tl.flatten, by simp⟩
    · obtain ⟨pre, post, hp⟩ := ih hmem
      exact ⟨hd ++ pre, post, by simp [hp]⟩

/-! ### `src/models/user_models.py` — the message model

Only the fields the queue core reads are modelled; `payload` stands for all
remaining payload fields (content, type, who_sent, …), which the queue passes
through unmodified. -/

structure InternalMessageModel where
  phone : String
  store_phone : String
  payload : Nat
deriving DecidableEq, Repr

/-- One scored entry of the `webhook` sorted set after decoding: the message
together with its Redis arrival timestamp (`redis_unixtimestamp`). -/
abbrev Scored : Type := InternalMessageModel × Int

/-! ### `src/services/redis/redis_services.py` — RedisService

`group_messages` builds `defaultdict(store_phone → defaultdict(phone → list))`;
`filter_messages` sorts each conversation's entries by arrival timestamp and
keeps the whole group when its newest entry is older than the cutoff;
`time_search` computes the cutoff `now − time_threshold_seconds`. -/

def group_messages (messages : List Scored) :
    List (String × List (String × List Scored)) :=
  messages.foldl
    (fun grouped p =>
      let inner := (alookup grouped p.1.store_phone).getD []
      let cell := (alookup inner p.1.phone).getD []
      ainsert grouped p.1.store_phone (ainsert inner p.1.phone (cell ++ [p])))
    []

/-- Python `messages.sort(key=lambda x: x[1])`. -/
def sortByArrival (l : List Scored) : List Scored :=
  List.insertionSort (fun a b => a.2 ≤ b.2) l

instance : IsTotal Scored (fun a b => a.2 ≤ b.2) :=
  ⟨fun a b => le_total a.2 b.2⟩

instance : IsTrans Scored (fun a b => a.2 ≤ b.2) :=
  ⟨fun _ _ _ h1 h2 => le_trans h1 h2⟩

/-- The contribution of one conversation `(store_phone, phone)` group to
`filter_messages`: its events, sorted by arrival, if `messages[-1][1] < cut`,
else nothing.  (The source indexes `messages[-1]` directly; groups produced by
`group_messages` are never empty, in which case the `none` branch is dead.) -/
def groupChunk (cut : Int) (msgs : List Scored) : List InternalMessageModel :=
  match (sortByArrival msgs).getLast? with
  | none => []
  | some last => if last.2 < cut then (sortByArrival msgs).map Prod.fst else []

def filter_messages (grouped : List (String × List (String × List Scored)))
    (cut : Int) : List InternalMessageModel :=
  grouped.foldl
    (fun acc sp => sp.2.foldl (fun acc2 ph => acc2 ++ groupChunk cut ph.2) acc)
    []

def time_search (messages : List Scored) (now : Int)
    (time_threshold_seconds : Int) : List InternalMessageModel :=
  filter_messages (group_messages messages) (now - time_threshold_seconds)

theorem filter_messages_eq_flatten
    (grouped : List (String × List (String × List Scored))) (cut : Int) :
    filter_messages grouped cut
      = (grouped.map
          (fun sp => (sp.2.map (fun ph => groupChunk cut ph.2)).flatten)).flatten := by
  unfold filter_messages
  rw [show (fun (acc : List InternalMessageModel)
        (sp : String × List (String × List Scored)) =>
          sp.2.foldl (fun acc2 ph => acc2 ++ groupChunk cut ph.2) acc)
      = fun acc sp =>
          acc ++ (sp.2.map (fun ph => groupChunk cut ph.2)).flatten from ?_]
  · rw [foldl_append_eq_flatten]
    simp
  · funext acc sp
    exact foldl_append_eq_flatten sp.2 _ acc

theorem sortByArrival_perm (l : List Scored) : (sortByArrival l).Perm l :=
  List.perm_insertionSort _ l

theorem sortByArrival_sorted (l : List Scored) :
    (sortByArrival l).Pairwise (fun a b => a.2 ≤ b.2) :=
  List.sorted_insertionSort _ l

theorem pairwise_le_getLast {l : List Scored}
    (h : l.Pairwise (fun a b => a.2 ≤ b.2)) {x : Scored} (hx : x ∈ l)
    (hne : l ≠ []) : x.2 ≤ (l.getLast hne).2 := by
  induction l with
  | nil => simp at hx
  | cons a t ih =>
    rcases List.mem_cons.mp hx with rfl | hmem
    · cases t with
      | nil => simp [List.getLast]
      | cons b u =>
        rw [List.getLast_cons (by simp)]
        exact (List.pairwise_cons.mp h).1 _ (List.getLast_mem _)
    · have ht : t ≠ [] := List.ne_nil_of_mem hmem
      rw [List.getLast_cons ht]
      exact ih (List.pairwise_cons.mp h).2 hmem ht

/-- The last element of the arrival-sorted list carries the maximal arrival
timestamp of the group; its comparison with `cut` is the whole-group
quiescence test. -/
theorem groupChunk_characterization (cut : Int) (msgs : List Scored)
    (hne : msgs ≠ []) :
    groupChunk cut msgs
      = if ∀ p ∈ msgs, p.2 < cut then (sortByArrival msgs).map Prod.fst
        else [] := by
  have hperm := sortByArrival_perm msgs
  have hsne : sortByArrival msgs ≠ [] := by
    intro h
    rw [h] at hperm
    exact hne hperm.symm.eq_nil
  have hlast : (sortByArrival msgs).getLast? = some ((sortByArrival msgs).getLast hsne) :=
    List.getLast?_eq_getLast _ hsne
  have hlast_mem : (sortByArrival msgs).getLast hsne ∈ msgs :=
    hperm.subset (List.getLast_mem hsne)
  unfold groupChunk
  rw [hlast]
  by_cases hq : ∀ p ∈ msgs, p.2 < cut
  · simp only [if_pos hq, if_pos (hq _ hlast_mem)]
  · have hlt : ¬ ((sortByArrival msgs).getLast hsne).2 < cut := by
      intro hcut
      apply hq
      intro p hp
      have hps : p ∈ sortByArrival msgs := hperm.symm.subset hp
      exact lt_of_le_of_lt (pairwise_le_getLast (sortByArrival_sorted msgs) hps hsne) hcut
    simp only [if_neg hq, if_neg hlt]

theorem mem_ainsert {V : Type} {m : List (String × V)} {k : String} {v : V}
    {q : String × V} (h : q ∈ ainsert m k v) : q ∈ m ∨ q = (k, v) := by
  induction m with
  | nil => simpa [ainsert] using h
  | cons p ps ih =>
    by_cases hp : p.1 = k
    · rw [show ainsert (p :: ps) k v = (k, v) :: ps by simp [ainsert, hp]] at h
      rcases List.mem_cons.mp h with rfl | hmem
      · exact Or.inr rfl
      · exact Or.inl (List.mem_cons_of_mem _ hmem)
    · rw [show ainsert (p :: ps) k v = p :: ainsert ps k v by simp [ainsert, hp]] at h
      rcases List.mem_cons.mp h with rfl | hmem
      · exact Or.inl (List.mem_cons_self _ _)
      · rcases ih hmem with h1 | h2
        · exact Or.inl (List.mem_cons_of_mem _ h1)
        · exact Or.inr h2

theorem mem_of_alookup_eq_some {V : Type} {m : List (String × V)} {k : String}
    {v : V} (h : alookup m k = some v) : (k, v) ∈ m := by
  induction m with
  | nil => simp at h
  | cons p ps ih =>
    by_cases hp : p.1 = k
    · rw [alookup_cons, if_pos hp] at h
      have : p = (k, v) := by
        rcases p with ⟨p1, p2⟩
        cases hp
        cases h
        rfl
      exact this ▸ List.mem_cons_self _ _
    · rw [alookup_cons, if_neg hp] at h
      exact List.mem_cons_of_mem _ (ih h)

theorem eq_of_mem_nodupKeys {V : Type} {m : List (String × V)}
    {a b : String × V} (hnd : nodupKeys m) (ha : a ∈ m) (hb : b ∈ m)
    (hk : a.1 = b.1) : a = b := by
  induction m with
  | nil => simp at ha
  | cons p ps ih =>
    obtain ⟨hp, hps⟩ := List.nodup_cons.mp hnd
    rcases List.mem_cons.mp ha with rfl | ha' <;>
      rcases List.mem_cons.mp hb with h | hb'
    · exact h ▸ rfl
    · exact absurd (hk ▸ List.mem_map_of_mem Prod.fst hb') hp
    · exact absurd (hk ▸ List.mem_map_of_mem Prod.fst ha') (h ▸ hp)
    · exact ih hps ha' hb'

/-- Structural facts about `group_messages`: buckets are keyed by the
messages' own fields, keys are unique at both levels, and buckets are
nonempty. -/
theorem group_messages_structure (messages : List Scored) :
    (∀ sp ∈ group_messages messages, ∀ ph ∈ sp.2, ∀ p ∈ ph.2,
        p.1.store_phone = sp.1 ∧ p.1.phone = ph.1)
    ∧ nodupKeys (group_messages messages)
    ∧ (∀ sp ∈ group_messages messages, nodupKeys sp.2)
    ∧ (∀ sp ∈ group_messages messages, ∀ ph ∈ sp.2, ph.2 ≠ []) := by
  suffices h : ∀ acc : List (String × List (String × List Scored)),
      (∀ sp ∈ acc, ∀ ph ∈ sp.2, ∀ p ∈ ph.2,
        p.1.store_phone = sp.1 ∧ p.1.phone = ph.1) →
      nodupKeys acc → (∀ sp ∈ acc, nodupKeys sp.2) →
      (∀ sp ∈ acc, ∀ ph ∈ sp.2, ph.2 ≠ []) →
      (∀ sp ∈ messages.foldl
          (fun grouped p =>
            let inner := (alookup grouped p.1.store_phone).getD []
            let cell := (alookup inner p.1.phone).getD []
            ainsert grouped p.1.store_phone
              (ainsert inner p.1.phone (cell ++ [p]))) acc,
          ∀ ph ∈ sp.2, ∀ p ∈ ph.2,
            p.1.store_phone = sp.1 ∧ p.1.phone = ph.1)
      ∧ nodupKeys (messages.foldl
          (fun grouped p =>
            let inner := (alookup grouped p.1.store_phone).getD []
            let cell := (alookup inner p.1.phone).getD []
            ainsert grouped p.1.store_phone
              (ainsert inner p.1.phone (cell ++ [p]))) acc)
      ∧ (∀ sp ∈ messages.foldl
          (fun grouped p =>
            let inner := (alookup grouped p.1.store_phone).getD []
            let cell := (alookup inner p.1.phone).getD []
            ainsert grouped p.1.store_phone
              (ainsert inner p.1.phone (cell ++ [p]))) acc, nodupKeys sp.2)
      ∧ (∀ sp ∈ messages.foldl
          (fun grouped p =>
            let inner := (alookup grouped p.1.store_phone).getD []
            let cell := (alookup inner p.1.phone).getD []
            ainsert grouped p.1.store_phone
              (ainsert inner p.1.phone (cell ++ [p]))) acc,
          ∀ ph ∈ sp.2, ph.2 ≠ []) by
    exact h [] (by simp) (by simp [nodupKeys]) (by simp) (by simp)
  induction messages with
  | nil => intro acc h1 h2 h3 h4; exact ⟨h1, h2, h3, h4⟩
  | cons q qs ih =>
    intro acc h1 h2 h3 h4
    simp only [List.foldl_cons]
    set inner := (alookup acc q.1.store_phone).getD [] with hinner
    set cell := (alookup inner q.1.phone).getD [] with hcell
    have hinner_mem : ∀ ph ∈ inner, ∀ p ∈ ph.2,
        p.1.store_phone = q.1.store_phone ∧ p.1.phone = ph.1 := by
      intro ph hph p hp
      rcases hin : alookup acc q.1.store_phone with _ | innerv
      · rw [hinner, hin] at hph; simp at hph
      · have hmem := mem_of_alookup_eq_some hin
        rw [hinner, hin] at hph
        exact h1 _ hmem ph hph p hp
    have hinner_nd : nodupKeys inner := by
      rcases hin : alookup acc q.1.store_phone with _ | innerv
      · rw [hinner, hin]; simp [nodupKeys]
      · rw [hinner, hin]; exact h3 _ (mem_of_alookup_eq_some hin)
    have hinner_ne : ∀ ph ∈ inner, ph.2 ≠ [] := by
      intro ph hph
      rcases hin : alookup acc q.1.store_phone with _ | innerv
      · rw [hinner, hin] at hph; simp at hph
      · rw [hinner, hin] at hph
        exact h4 _ (mem_of_alookup_eq_some hin) ph hph
    have hcell_mem : ∀ p ∈ cell,
        p.1.store_phone = q.1.store_phone ∧ p.1.phone = q.1.phone := by
      intro p hp
      rcases hc : alookup inner q.1.phone with _ | cellv
      · rw [hcell, hc] at hp; simp at hp
      · have hmem := mem_of_alookup_eq_some hc
        rw [hcell, hc] at hp
        exact hinner_mem _ hmem p hp
    refine ih (ainsert acc q.1.store_phone (ainsert inner q.1.phone (cell ++ [q])))
      ?_ (nodupKeys_ainsert _ _ _ h2) ?_ ?_
    · intro sp hsp ph hph p hp
      rcases mem_ainsert hsp with hold | rfl
      · exact h1 sp hold ph hph p hp
      · rcases mem_ainsert hph with hph_old | rfl
        · have := hinner_mem ph hph_old p hp
          exact ⟨this.1, this.2⟩
        · rcases List.mem_append.mp hp with hcellp | hqp
          · have := hcell_mem p hcellp
            exact ⟨this.1, this.2⟩
          · have : p = q := List.mem_singleton.mp hqp
            subst this
            exact ⟨rfl, rfl⟩
    · intro sp hsp
      rcases mem_ainsert hsp with hold | rfl
      · exact h3 sp hold
      · exact nodupKeys_ainsert _ _ _ hinner_nd
    · intro sp hsp ph hph
      rcases mem_ainsert hsp with hold | rfl
      · exact h4 sp hold ph hph
      · rcases mem_ainsert hph with hph_old | rfl
        · exact hinner_ne ph hph_old
        · simp

/-- Provenance of `filter_messages` output: every returned message comes from
some group's chunk. -/
theorem filter_messages_provenance
    (grouped : List (String × List (String × List Scored))) (cut : Int)
    {m : InternalMessageModel} (hm : m ∈ filter_messages grouped cut) :
    ∃ sp ∈ grouped, ∃ ph ∈ sp.2, m ∈ groupChunk cut ph.2 := by
  rw [filter_messages_eq_flatten] at hm
  obtain ⟨l1, hl1, hml1⟩ := List.mem_flatten.mp hm
  obtain ⟨sp, hsp, rfl⟩ := List.mem_map.mp hl1
  obtain ⟨l2, hl2, hml2⟩ := List.mem_flatten.mp hml1
  obtain ⟨ph, hph, rfl⟩ := List.mem_map.mp hl2
  exact ⟨sp, hsp, ph, hph, hml2⟩

/-- Members of a chunk are messages of the chunk's group. -/
theorem groupChunk_mem {cut : Int} {l : List Scored} {m : InternalMessageModel}
    (hm : m ∈ groupChunk cut l) : ∃ p ∈ l, p.1 = m := by
  unfold groupChunk at hm
  rcases hlast : (sortByArrival l).getLast? with _ | last
  · simp [hlast] at hm
  · simp only [hlast] at hm
    by_cases hcut : last.2 < cut
    · rw [if_pos hcut] at hm
      obtain ⟨p, hp, rfl⟩ := List.mem_map.mp hm
      exact ⟨p, (sortByArrival_perm l).subset hp, rfl⟩
    · rw [if_neg hcut] at hm; simp at hm

/-- Sample message used in concrete witnesses and counterexamples. -/
def mA : InternalMessageModel := ⟨"5531000001", "5531999999", 0⟩

/-- Second sample message (same conversation as `mA`). -/
def mB : InternalMessageModel := ⟨"5531000001", "5531999999", 1⟩

/-- C1 (amended: strict quiescence). For every scan and every conversation
group of the scanned messages: the debounce filter returns the group's events
if and only if *strict* quiescence holds — every member's arrival is strictly
older than the window, i.e. `now − max(arrival) > debounce_window` (the source
tests `messages[-1][1] < cut` with `cut = now − window`); if any member is at
most the window old, none of the group's events are returned anywhere in the
scan's output; when eligible, all of the group's events are returned (a
permutation of the group) in arrival-time ascending order, contiguously
within the scan's output. -/
theorem time_search_group_dispatch
    (messages : List Scored) (now w : Int)
    (sp : String × List (String × List Scored)) (ph : String × List Scored)
    (hsp : sp ∈ group_messages messages) (hph : ph ∈ sp.2) (hne : ph.2 ≠ []) :
    (∃ pre post, time_search messages now w
        = pre ++ groupChunk (now - w) ph.2 ++ post)
    ∧ (groupChunk (now - w) ph.2
        = if ∀ p ∈ ph.2, w < now - p.2 then (sortByArrival ph.2).map Prod.fst
          else [])
    ∧ ((¬ ∀ p ∈ ph.2, w < now - p.2) →
        ∀ q ∈ ph.2, q.1 ∉ time_search messages now w)
    ∧ (sortByArrival ph.2).Perm ph.2
    ∧ ((sortByArrival ph.2).map Prod.snd).Pairwise (· ≤ ·) := by
  have hchar : groupChunk (now - w) ph.2
      = if ∀ p ∈ ph.2, w < now - p.2 then (sortByArrival ph.2).map Prod.fst
        else [] := by
    have hiff : (∀ p ∈ ph.2, p.2 < now - w) ↔ (∀ p ∈ ph.2, w < now - p.2) := by
      constructor <;> intro h p hp <;> have := h p hp <;> omega
    rw [groupChunk_characterization _ _ hne]
    exact if_congr hiff rfl rfl
  refine ⟨?_, hchar, ?_, sortByArrival_perm ph.2, ?_⟩
  · rw [time_search, filter_messages_eq_flatten]
    have hinner : groupChunk (now - w) ph.2
        ∈ sp.2.map (fun q => groupChunk (now - w) q.2) :=
      List.mem_map.mpr ⟨ph, hph, rfl⟩
    obtain ⟨pre2, post2, h2⟩ := flatten_mem_contiguous hinner
    have houter : (sp.2.map (fun q => groupChunk (now - w) q.2)).flatten
        ∈ (group_messages messages).map
            (fun q => (q.2.map (fun r => groupChunk (now - w) r.2)).flatten) :=
      List.mem_map.mpr ⟨sp, hsp, rfl⟩
    obtain ⟨pre1, post1, h1⟩ := flatten_mem_contiguous houter
    refine ⟨pre1 ++ pre2, post2 ++ post1, ?_⟩
    rw [h1, h2]
    simp [List.append_assoc]
  · intro hnq q hq hout
    obtain ⟨hfields, hndO, hndI, _⟩ := group_messages_structure messages
    have hempty : groupChunk (now - w) ph.2 = [] := by
      rw [hchar, if_neg hnq]
    rw [time_search] at hout
    obtain ⟨sp', hsp', ph', hph', hm⟩ := filter_messages_provenance _ _ hout
    obtain ⟨p', hp', hpq⟩ := groupChunk_mem hm
    obtain ⟨hsp'1, hph'1⟩ := hfields sp' hsp' ph' hph' p' hp'
    obtain ⟨hsp1, hph1⟩ := hfields sp hsp ph hph q hq
    have hspe : sp' = sp :=
      eq_of_mem_nodupKeys hndO hsp' hsp
        (by rw [← hsp'1, ← hsp1, hpq])
    subst hspe
    have hphe : ph' = ph :=
      eq_of_mem_nodupKeys (hndI sp' hsp) hph' hph
        (by rw [← hph'1, ← hph1, hpq])
    subst hphe
    rw [hempty] at hm
    simp at hm
  · rw [List.pairwise_map]
    exact sortByArrival_sorted ph.2

/-- Closed witness for `time_search_group_dispatch` at a concrete scan: one
conversation with a single message of arrival 40, scanned at `now = 100` with
window 30; the group is strictly quiescent and is dispatched. -/
theorem time_search_group_dispatch_witness :
    (("5531999999", [("5531000001", [(mA, 40)])]) ∈ group_messages [(mA, 40)]
      ∧ ("5531000001", [(mA, (40 : Int))]) ∈ [("5531000001", [(mA, (40 : Int))])]
      ∧ ([(mA, (40 : Int))] : List Scored) ≠ [])
    ∧ (∃ pre post, time_search [(mA, 40)] 100 30
        = pre ++ groupChunk (100 - 30) [(mA, 40)] ++ post) :=
  ⟨⟨by decide, by decide, by decide⟩,
    (time_search_group_dispatch [(mA, 40)] 100 30
      ("5531999999", [("5531000001", [(mA, 40)])]) ("5531000001", [(mA, 40)])
      (by decide) (by decide) (by decide)).1⟩

/-- C1 counterexample. The claim's non-strict quiescence
`now − max(arrival) ≥ debounce_window` predicts dispatch at the exact
boundary, but the source (`messages[-1][1] < cut`) returns nothing there:
with a single message of arrival 40, `now = 100` and window 60, we have
`now − max = 60 ≥ 60`, yet `time_search` returns the empty list. -/
theorem time_search_boundary_counterexample :
    ((100 : Int) - 40 ≥ 60) ∧ time_search [(mA, 40)] 100 60 = [] :=
  ⟨by decide, by rfl⟩

/-! ### `consumer.py` — the Main Loop (`processer`)

One iteration of the `while True` loop is modelled as a pure function of the
bookkeeping state (`tasks`, `tries`, `messages_dict`), the scanned messages
(the result of `database.time_search(...)` this cycle) and an executor oracle
`complete` telling which still-pending futures have finished by reap time.
Dict accesses that can raise `KeyError` run in `Except String`. -/

/-- Python f-string of phone, underscore, store_phone. -/
def composite_key (m : InternalMessageModel) : String :=
  m.phone ++ "_" ++ m.store_phone

/-- A `Future[bool]` from `pool.submit(process_message_and_send_to_client,
messages_dict[key])`, remembered with the batch it was submitted on.
`result = none` while running; a completed future's boolean never changes. -/
structure FutureB where
  batch : List InternalMessageModel
  result : Option Bool
deriving DecidableEq, Repr

/-- The loop's in-memory bookkeeping. -/
structure LoopState where
  tasks : List (String × FutureB)
  tries : List (String × Nat)
  messages_dict : List (String × List InternalMessageModel)
deriving DecidableEq, Repr

def initialLoopState : LoopState := ⟨[], [], []⟩

/-- First `for message in messages` loop: messages whose composite key is
already being processed are skipped entirely; fresh keys are collected into
`key_list` (first-seen order, deduplicated — `key_filter` in the source
mirrors `key_list` membership) and each fresh message is appended to its
key's buffered batch in `messages_dict`. -/
def scanStep (tasks : List (String × FutureB))
    (acc : List String × List (String × List InternalMessageModel))
    (message : InternalMessageModel) :
    List String × List (String × List InternalMessageModel) :=
  let k := composite_key message
  if alookup tasks k = none then
    (if k ∈ acc.1 then acc.1 else acc.1 ++ [k],
      ainsert acc.2 k ((alookup acc.2 k).getD [] ++ [message]))
  else acc

def scanPhase (tasks : List (String × FutureB))
    (messages_dict : List (String × List InternalMessageModel))
    (messages : List InternalMessageModel) :
    List String × List (String × List InternalMessageModel) :=
  messages.foldl (scanStep tasks) ([], messages_dict)

/-- Loop `while key_list and len(tasks) < workers`: pop the first key and submit a
task carrying `messages_dict[composite_key]` as its batch.  Returns the grown
`tasks` map and the submissions made, in order. -/
def submitPhase (workers : Nat) (tasks : List (String × FutureB))
    (messages_dict : List (String × List InternalMessageModel)) :
    List String →
    Except String
      (List (String × FutureB) × List (String × List InternalMessageModel))
  | [] => Except.ok (tasks, [])
  | k :: key_list =>
    if tasks.length < workers then do
      let batch ← aget messages_dict k
      let (tasks', subs) ←
        submitPhase workers (ainsert tasks k ⟨batch, none⟩) messages_dict key_list
      Except.ok (tasks', (k, batch) :: subs)
    else Except.ok (tasks, [])

/-- Loop `for composite_key in list(tasks.keys())`: read every finished future's
boolean (re-read each cycle — the result of a completed future is fixed).
Success records the key in `done_tasks` and, if the key has a failure count,
sets it to the sentinel 4; failure increments the count from a default of 0.
Returns the tasks (results recorded), the updated `tries`, and `done_tasks`. -/
def reapPhase (complete : String → Option Bool) :
    List (String × FutureB) → List (String × Nat) →
    List (String × FutureB) × List (String × Nat) × List String
  | [], tries => ([], tries, [])
  | (k, t) :: rest, tries =>
    match t.result.orElse (fun _ => complete k) with
    | none =>
      let (rest', tries', done) := reapPhase complete rest tries
      ((k, t) :: rest', tries', done)
    | some r =>
      if r then
        let tries1 := if (alookup tries k).isSome then ainsert tries k 4 else tries
        let (rest', tries', done) := reapPhase complete rest tries1
        ((k, { t with result := some r }) :: rest', tries', k :: done)
      else
        let tries1 := ainsert tries k ((alookup tries k).getD 0 + 1)
        let (rest', tries', done) := reapPhase complete rest tries1
        ((k, { t with result := some r }) :: rest', tries', done)

/-- Loop `for composite_key in done_tasks`: drop the task handle, send the key's
buffered batch to `database.delete_messages`, and drop the batch. -/
def removalPhase :
    List String → List (String × FutureB) →
    List (String × List InternalMessageModel) →
    Except String
      (List (String × FutureB) × List (String × List InternalMessageModel)
        × List InternalMessageModel)
  | [], tasks, messages_dict => Except.ok (tasks, messages_dict, [])
  | k :: done, tasks, messages_dict => do
    let _ ← aget tasks k
    let batch ← aget messages_dict k
    let (tasks', md', dels) ←
      removalPhase done (aerase tasks k) (aerase messages_dict k)
    Except.ok (tasks', md', batch ++ dels)

/-- Body of `for composite_key in list(tries.keys())`: keys that failed more
than 3 times get their buffered batch sent to `database.delete_messages` and
their retry counter, buffered batch and task handle removed. -/
def evictionGo :
    List String → List (String × FutureB) → List (String × Nat) →
    List (String × List InternalMessageModel) →
    Except String
      (List (String × FutureB) × List (String × Nat)
        × List (String × List InternalMessageModel) × List InternalMessageModel)
  | [], tasks, tries, messages_dict => Except.ok (tasks, tries, messages_dict, [])
  | k :: keys, tasks, tries, messages_dict => do
    let n ← aget tries k
    if n > 3 then do
      let batch ← aget messages_dict k
      let _ ← aget tasks k
      let (tasks', tries', md', dels) ←
        evictionGo keys (aerase tasks k) (aerase tries k) (aerase messages_dict k)
      Except.ok (tasks', tries', md', batch ++ dels)
    else
      evictionGo keys tasks tries messages_dict

/-- The eviction loop iterates over a snapshot of `tries`' keys. -/
def evictionPhase (tasks : List (String × FutureB)) (tries : List (String × Nat))
    (messages_dict : List (String × List InternalMessageModel)) :
    Except String
      (List (String × FutureB) × List (String × Nat)
        × List (String × List InternalMessageModel) × List InternalMessageModel) :=
  evictionGo (tries.map Prod.fst) tasks tries messages_dict

/-- One iteration of `processer`'s `while True` loop.  Returns the next
bookkeeping state, the submissions made this cycle (key and batch), and the
messages deleted from the Event Store (`database.delete_messages` calls). -/
def processerCycle (workers : Nat) (s : LoopState)
    (messages : List InternalMessageModel) (complete : String → Option Bool) :
    Except String
      (LoopState × List (String × List InternalMessageModel)
        × List InternalMessageModel) := do
  let (key_list, md1) := scanPhase s.tasks s.messages_dict messages
  let (tasks1, subs) ← submitPhase workers s.tasks md1 key_list
  let (tasks2, tries2, done_tasks) := reapPhase complete tasks1 s.tries
  let (tasks3, md3, dels1) ← removalPhase done_tasks tasks2 md1
  let (tasks4, tries4, md4, dels2) ← evictionPhase tasks3 tries2 md3
  Except.ok (⟨tasks4, tries4, md4⟩, subs, dels1 ++ dels2)

/-- Several consecutive loop iterations, accumulating submissions and
deletions. -/
def processerRun (workers : Nat) :
    LoopState → List (List InternalMessageModel × (String → Option Bool)) →
    Except String
      (LoopState × List (String × List InternalMessageModel)
        × List InternalMessageModel)
  | s, [] => Except.ok (s, [], [])
  | s, (msgs, complete) :: cycles => do
    let (s1, subs1, dels1) ← processerCycle workers s msgs complete
    let (s2, subs2, dels2) ← processerRun workers s1 cycles
    Except.ok (s2, subs1 ++ subs2, dels1 ++ dels2)

/-- Sample message of a second, unrelated conversation. -/
def mC : InternalMessageModel := ⟨"5532000002", "5531999999", 2⟩

/-- C3 (evaluation of the code at the failing input). One conversation,
one dispatch, one failure: starting from the empty state, the key's task is
submitted in cycle 1 and its future completes `False`.  Because a failed key
is never removed from `tasks`, the loop re-reads the *same* completed future
on every later cycle: after two further cycles — with no new dispatch at all —
the retry counter has been incremented to 3 and the only submission ever made
is the cycle-1 one; on the fourth cycle the counter reaches 4 and the group's
events are deleted (evicted).  The failed group is never re-submitted: the
claim's "incremented by exactly one for that failed dispatch attempt" and
"becomes re-submittable in a later eligible cycle" both fail. -/
theorem single_failure_no_retry_then_eviction :
    processerRun 10 initialLoopState
      [([mA], fun key => if key = "5531000001_5531999999" then some false else none),
       ([mA], fun _ => none), ([mA], fun _ => none)]
    = Except.ok
        (⟨[("5531000001_5531999999", ⟨[mA], some false⟩)],
          [("5531000001_5531999999", 3)],
          [("5531000001_5531999999", [mA])]⟩,
         [("5531000001_5531999999", [mA])], [])
    ∧ processerRun 10 initialLoopState
      [([mA], fun key => if key = "5531000001_5531999999" then some false else none),
       ([mA], fun _ => none), ([mA], fun _ => none), ([mA], fun _ => none)]
    = Except.ok (⟨[], [], []⟩, [("5531000001_5531999999", [mA])], [mA]) :=
  ⟨rfl, rfl⟩

/-- C6 (evaluation of the code at the failing input). With a single worker
occupied by another conversation's pending task, a newly eligible key is
deferred; on every deferral cycle the scan re-reads the key's still-queued
event from the store and appends it *again* to the key's buffered batch.
When a slot finally frees up, the submitted batch contains the single queued
event `mA` three times — refuting "each of that key's currently queued events
exactly once, even when admission was deferred across earlier cycles". -/
theorem deferred_key_batch_duplicated :
    processerRun 1
      ⟨[("5532000002_5531999999", ⟨[mC], none⟩)], [],
        [("5532000002_5531999999", [mC])]⟩
      [([mA], fun _ => none),
       ([mA], fun key => if key = "5532000002_5531999999" then some true else none),
       ([mA], fun _ => none)]
    = Except.ok
        (⟨[("5531000001_5531999999", ⟨[mA, mA, mA], none⟩)], [],
          [("5531000001_5531999999", [mA, mA, mA])]⟩,
         [("5531000001_5531999999", [mA, mA, mA])], [mC]) := rfl

/-! #### Properties of the scan phase -/

theorem scanStep_keyList_cases (tasks : List (String × FutureB))
    (acc : List String × List (String × List InternalMessageModel))
    (m : InternalMessageModel) {k : String}
    (hk : k ∈ (scanStep tasks acc m).1) :
    k ∈ acc.1 ∨ alookup tasks k = none := by
  unfold scanStep at hk
  by_cases h : alookup tasks (composite_key m) = none
  · simp only [if_pos h] at hk
    by_cases hmem : composite_key m ∈ acc.1
    · exact Or.inl (by simpa [hmem] using hk)
    · simp only [if_neg hmem] at hk
      rcases List.mem_append.mp hk with h1 | h2
      · exact Or.inl h1
      · exact Or.inr (List.mem_singleton.mp h2 ▸ h)
  · exact Or.inl (by simpa [if_neg h] using hk)

theorem scanStep_keyList_nodup (tasks : List (String × FutureB))
    (acc : List String × List (String × List InternalMessageModel))
    (m : InternalMessageModel) (h : acc.1.Nodup) :
    (scanStep tasks acc m).1.Nodup := by
  unfold scanStep
  by_cases hnew : alookup tasks (composite_key m) = none
  · by_cases hmem : composite_key m ∈ acc.1
    · simpa [hnew, hmem] using h
    · simpa [hnew, hmem] using List.Nodup.append h (by simp) (by simpa using hmem)
  · simpa [hnew] using h

theorem scanStep_md_isSome (tasks : List (String × FutureB))
    (acc : List String × List (String × List InternalMessageModel))
    (m : InternalMessageModel)
    (h : ∀ k ∈ acc.1, (alookup acc.2 k).isSome) :
    ∀ k ∈ (scanStep tasks acc m).1, (alookup (scanStep tasks acc m).2 k).isSome := by
  intro k hk
  unfold scanStep at hk ⊢
  by_cases hnew : alookup tasks (composite_key m) = none
  · simp only [if_pos hnew] at hk ⊢
    by_cases hkm : composite_key m = k
    · simp [alookup_ainsert, hkm]
    · rw [alookup_ainsert_ne _ _ hkm]
      apply h
      by_cases hmem : composite_key m ∈ acc.1
      · simpa [hmem] using hk
      · simp only [if_neg hmem] at hk
        rcases List.mem_append.mp hk with h1 | h2
        · exact h1
        · exact absurd (List.mem_singleton.mp h2).symm hkm
  · simp only [if_neg hnew] at hk ⊢
    exact h k hk

theorem scanStep_md_in_tasks (tasks : List (String × FutureB))
    (acc : List String × List (String × List InternalMessageModel))
    (m : InternalMessageModel) (k : String)
    (hk : alookup tasks k ≠ none) :
    alookup (scanStep tasks acc m).2 k = alookup acc.2 k := by
  unfold scanStep
  by_cases hnew : alookup tasks (composite_key m) = none
  · have : composite_key m ≠ k := fun he => hk (he ▸ hnew)
    simp [hnew, alookup_ainsert_ne _ _ this]
  · simp [hnew]

theorem scanStep_md_nodup (tasks : List (String × FutureB))
    (acc : List String × List (String × List InternalMessageModel))
    (m : InternalMessageModel) (h : nodupKeys acc.2) :
    nodupKeys (scanStep tasks acc m).2 := by
  unfold scanStep
  by_cases hnew : alookup tasks (composite_key m) = none
  · simpa [hnew] using nodupKeys_ainsert _ _ _ h
  · simpa [hnew] using h

/-- Invariants carried through the whole scan loop. -/
theorem scanFold_inv (tasks : List (String × FutureB))
    (messages : List InternalMessageModel) :
    ∀ acc : List String × List (String × List InternalMessageModel),
      acc.1.Nodup → (∀ k ∈ acc.1, alookup tasks k = none) →
      (∀ k ∈ acc.1, (alookup acc.2 k).isSome) → nodupKeys acc.2 →
      (messages.foldl (scanStep tasks) acc).1.Nodup
      ∧ (∀ k ∈ (messages.foldl (scanStep tasks) acc).1, alookup tasks k = none)
      ∧ (∀ k ∈ (messages.foldl (scanStep tasks) acc).1,
          (alookup (messages.foldl (scanStep tasks) acc).2 k).isSome)
      ∧ nodupKeys (messages.foldl (scanStep tasks) acc).2
      ∧ (∀ k, alookup tasks k ≠ none →
          alookup (messages.foldl (scanStep tasks) acc).2 k = alookup acc.2 k) := by
  induction messages with
  | nil => intro acc h1 h2 h3 h4; exact ⟨h1, h2, h3, h4, fun _ _ => rfl⟩
  | cons m ms ih =>
    intro acc h1 h2 h3 h4
    simp only [List.foldl_cons]
    have h1' := scanStep_keyList_nodup tasks acc m h1
    have h2' : ∀ k ∈ (scanStep tasks acc m).1, alookup tasks k = none := by
      intro k hk
      rcases scanStep_keyList_cases tasks acc m hk with hmem | hnone
      · exact h2 k hmem
      · exact hnone
    have h3' := scanStep_md_isSome tasks acc m h3
    have h4' := scanStep_md_nodup tasks acc m h4
    obtain ⟨g1, g2, g3, g4, g5⟩ := ih (scanStep tasks acc m) h1' h2' h3' h4'
    refine ⟨g1, g2, g3, g4, fun k hk => ?_⟩
    rw [g5 k hk, scanStep_md_in_tasks tasks acc m k hk]

theorem scanPhase_inv (tasks : List (String × FutureB))
    (messages_dict : List (String × List InternalMessageModel))
    (messages : List InternalMessageModel) (hmd : nodupKeys messages_dict) :
    (scanPhase tasks messages_dict messages).1.Nodup
    ∧ (∀ k ∈ (scanPhase tasks messages_dict messages).1, alookup tasks k = none)
    ∧ (∀ k ∈ (scanPhase tasks messages_dict messages).1,
        (alookup (scanPhase tasks messages_dict messages).2 k).isSome)
    ∧ nodupKeys (scanPhase tasks messages_dict messages).2
    ∧ (∀ k, alookup tasks k ≠ none →
        alookup (scanPhase tasks messages_dict messages).2 k
          = alookup messages_dict k) := by
  have := scanFold_inv tasks messages ([], messages_dict)
    (by simp) (by simp) (by simp) hmd
  simpa [scanPhase] using this

/-! #### Properties of the submit phase -/

theorem submitPhase_subs_sublist (workers : Nat) :
    ∀ (key_list : List String) (tasks : List (String × FutureB))
      (md : List (String × List InternalMessageModel))
      (tasks' : List (String × FutureB))
      (subs : List (String × List InternalMessageModel)),
      submitPhase workers tasks md key_list = Except.ok (tasks', subs) →
      (subs.map Prod.fst).Sublist key_list := by
  intro key_list
  induction key_list with
  | nil =>
    intro tasks md tasks' subs h
    simp only [submitPhase] at h
    cases h
    simp
  | cons k ks ih =>
    intro tasks md tasks' subs h
    simp only [submitPhase] at h
    by_cases hw : tasks.length < workers
    · rw [if_pos hw] at h
      cases hb : aget md k with
      | error e => rw [hb, exceptBind_error] at h; exact Except.noConfusion h
      | ok batch =>
        rw [hb, exceptBind_ok] at h
        cases hrec : submitPhase workers (ainsert tasks k ⟨batch, none⟩) md ks with
        | error e => rw [hrec, exceptBind_error] at h; exact Except.noConfusion h
        | ok pr =>
          rw [hrec, exceptBind_ok] at h
          cases h
          exact List.Sublist.cons₂ k (ih _ md pr.1 pr.2 (by rw [hrec]))
    · rw [if_neg hw] at h
      cases h
      simp

theorem submitPhase_nodup (workers : Nat) :
    ∀ (key_list : List String) (tasks : List (String × FutureB))
      (md : List (String × List InternalMessageModel))
      (tasks' : List (String × FutureB))
      (subs : List (String × List InternalMessageModel)),
      submitPhase workers tasks md key_list = Except.ok (tasks', subs) →
      nodupKeys tasks → nodupKeys tasks' := by
  intro key_list
  induction key_list with
  | nil =>
    intro tasks md tasks' subs h hnd
    simp only [submitPhase] at h
    cases h
    exact hnd
  | cons k ks ih =>
    intro tasks md tasks' subs h hnd
    simp only [submitPhase] at h
    by_cases hw : tasks.length < workers
    · rw [if_pos hw] at h
      cases hb : aget md k with
      | error e => rw [hb, exceptBind_error] at h; exact Except.noConfusion h
      | ok batch =>
        rw [hb, exceptBind_ok] at h
        cases hrec : submitPhase workers (ainsert tasks k ⟨batch, none⟩) md ks with
        | error e => rw [hrec, exceptBind_error] at h; exact Except.noConfusion h
        | ok pr =>
          rw [hrec, exceptBind_ok] at h
          cases h
          exact ih _ md pr.1 pr.2 (by rw [hrec]) (nodupKeys_ainsert _ _ _ hnd)
    · rw [if_neg hw] at h
      cases h
      exact hnd

theorem submitPhase_ok (workers : Nat) :
    ∀ (key_list : List String) (tasks : List (String × FutureB))
      (md : List (String × List InternalMessageModel)),
      (∀ k ∈ key_list, (alookup md k).isSome) →
      ∃ tasks' subs, submitPhase workers tasks md key_list
        = Except.ok (tasks', subs) := by
  intro key_list
  induction key_list with
  | nil => intro tasks md _; exact ⟨tasks, [], rfl⟩
  | cons k ks ih =>
    intro tasks md hall
    simp only [submitPhase]
    by_cases hw : tasks.length < workers
    · rw [if_pos hw]
      obtain ⟨batch, hb⟩ := Option.isSome_iff_exists.mp (hall k (by simp))
      have hget : aget md k = Except.ok batch := by simp [aget, hb]
      rw [hget, exceptBind_ok]
      obtain ⟨t2, subs2, hrec⟩ := ih (ainsert tasks k ⟨batch, none⟩) md
        (fun k' hk' => hall k' (by simp [hk']))
      rw [hrec, exceptBind_ok]
      exact ⟨t2, (k, batch) :: subs2, rfl⟩
    · rw [if_neg hw]
      exact ⟨tasks, [], rfl⟩

theorem submitPhase_lookup_old (workers : Nat) :
    ∀ (key_list : List String) (tasks : List (String × FutureB))
      (md : List (String × List InternalMessageModel))
      (tasks' : List (String × FutureB))
      (subs : List (String × List InternalMessageModel)),
      submitPhase workers tasks md key_list = Except.ok (tasks', subs) →
      (∀ k ∈ key_list, alookup tasks k = none) → key_list.Nodup →
      ∀ (k : String) (t0 : FutureB), alookup tasks k = some t0 →
        alookup tasks' k = some t0 := by
  intro key_list
  induction key_list with
  | nil =>
    intro tasks md tasks' subs h _ _ k t0 hk
    simp only [submitPhase] at h
    cases h
    exact hk
  | cons k1 ks ih =>
    intro tasks md tasks' subs h hfresh hnd k t0 hk
    simp only [submitPhase] at h
    by_cases hw : tasks.length < workers
    · rw [if_pos hw] at h
      cases hb : aget md k1 with
      | error e => rw [hb, exceptBind_error] at h; exact Except.noConfusion h
      | ok batch =>
        rw [hb, exceptBind_ok] at h
        cases hrec : submitPhase workers (ainsert tasks k1 ⟨batch, none⟩) md ks with
        | error e => rw [hrec, exceptBind_error] at h; exact Except.noConfusion h
        | ok pr =>
          rw [hrec, exceptBind_ok] at h
          cases h
          have hne : k1 ≠ k := by
            intro he
            have hx := hfresh k1 (by simp)
            rw [he, hk] at hx
            exact Option.noConfusion hx
          refine ih (ainsert tasks k1 ⟨batch, none⟩) md pr.1 pr.2 (by rw [hrec])
            ?_ (List.nodup_cons.mp hnd).2 k t0
            (by rw [alookup_ainsert_ne _ _ hne]; exact hk)
          intro k' hk'
          have hne' : k1 ≠ k' := fun he => (List.nodup_cons.mp hnd).1 (he ▸ hk')
          rw [alookup_ainsert_ne _ _ hne']
          exact hfresh k' (by simp [hk'])
    · rw [if_neg hw] at h
      cases h
      exact hk

theorem submitPhase_lookup_char (workers : Nat) :
    ∀ (key_list : List String) (tasks : List (String × FutureB))
      (md : List (String × List InternalMessageModel))
      (tasks' : List (String × FutureB))
      (subs : List (String × List InternalMessageModel)),
      submitPhase workers tasks md key_list = Except.ok (tasks', subs) →
      ∀ (k : String) (t' : FutureB), alookup tasks' k = some t' →
        alookup tasks k = some t'
        ∨ (alookup md k = some t'.batch ∧ t'.result = none) := by
  intro key_list
  induction key_list with
  | nil =>
    intro tasks md tasks' subs h k t' hk
    simp only [submitPhase] at h
    cases h
    exact Or.inl hk
  | cons k1 ks ih =>
    intro tasks md tasks' subs h k t' hk
    simp only [submitPhase] at h
    by_cases hw : tasks.length < workers
    · rw [if_pos hw] at h
      cases hb : aget md k1 with
      | error e => rw [hb, exceptBind_error] at h; exact Except.noConfusion h
      | ok batch =>
        rw [hb, exceptBind_ok] at h
        cases hrec : submitPhase workers (ainsert tasks k1 ⟨batch, none⟩) md ks with
        | error e => rw [hrec, exceptBind_error] at h; exact Except.noConfusion h
        | ok pr =>
          rw [hrec, exceptBind_ok] at h
          cases h
          rcases ih (ainsert tasks k1 ⟨batch, none⟩) md pr.1 pr.2 (by rw [hrec])
            k t' hk with hold | hnew
          · rw [alookup_ainsert] at hold
            by_cases he : k1 = k
            · refine Or.inr ?_
              rw [if_pos he] at hold
              have : (⟨batch, none⟩ : FutureB) = t' := Option.some.inj hold
              subst this
              have hbatch : alookup md k1 = some batch := by
                rcases hmb : alookup md k1 with _ | b
                · simp [aget, hmb] at hb
                · simp only [aget, hmb] at hb
                  cases hb
                  rfl
              exact ⟨he ▸ hbatch, rfl⟩
            · rw [if_neg he] at hold
              exact Or.inl hold
          · exact Or.inr hnew
    · rw [if_neg hw] at h
      cases h
      exact Or.inl hk

/-! #### Properties of the reap phase -/

theorem alookup_isSome_iff {V : Type} (m : List (String × V)) (k : String) :
    (alookup m k).isSome ↔ k ∈ m.map Prod.fst := by
  rcases h : alookup m k with _ | v
  · simpa using (alookup_eq_none_iff m k).mp h
  · simp only [Option.isSome_some, true_iff]
    by_contra hmem
    rw [(alookup_eq_none_iff m k).mpr hmem] at h
    exact Option.noConfusion h

theorem reapPhase_cons_none (c : String → Option Bool) (k : String) (t : FutureB)
    (rest : List (String × FutureB)) (tries : List (String × Nat))
    (h : t.result.orElse (fun _ => c k) = none) :
    reapPhase c ((k, t) :: rest) tries =
      ((k, t) :: (reapPhase c rest tries).1,
        (reapPhase c rest tries).2.1, (reapPhase c rest tries).2.2) := by
  rcases hr : reapPhase c rest tries with ⟨a, b, d⟩
  simp [reapPhase, h, hr]

theorem reapPhase_cons_true (c : String → Option Bool) (k : String) (t : FutureB)
    (rest : List (String × FutureB)) (tries : List (String × Nat))
    (h : t.result.orElse (fun _ => c k) = some true) :
    reapPhase c ((k, t) :: rest) tries =
      ((k, { t with result := some true })
          :: (reapPhase c rest
              (if (alookup tries k).isSome then ainsert tries k 4 else tries)).1,
        (reapPhase c rest
          (if (alookup tries k).isSome then ainsert tries k 4 else tries)).2.1,
        k :: (reapPhase c rest
          (if (alookup tries k).isSome then ainsert tries k 4 else tries)).2.2) := by
  rcases hr : reapPhase c rest
      (if (alookup tries k).isSome then ainsert tries k 4 else tries) with ⟨a, b, d⟩
  simp [reapPhase, h, hr]

theorem reapPhase_cons_false (c : String → Option Bool) (k : String) (t : FutureB)
    (rest : List (String × FutureB)) (tries : List (String × Nat))
    (h : t.result.orElse (fun _ => c k) = some false) :
    reapPhase c ((k, t) :: rest) tries =
      ((k, { t with result := some false })
          :: (reapPhase c rest (ainsert tries k ((alookup tries k).getD 0 + 1))).1,
        (reapPhase c rest (ainsert tries k ((alookup tries k).getD 0 + 1))).2.1,
        (reapPhase c rest (ainsert tries k ((alookup tries k).getD 0 + 1))).2.2) := by
  rcases hr : reapPhase c rest (ainsert tries k ((alookup tries k).getD 0 + 1))
    with ⟨a, b, d⟩
  simp [reapPhase, h, hr]

theorem reap_tasks_keys (c : String → Option Bool) :
    ∀ (tasks : List (String × FutureB)) (tries : List (String × Nat)),
      (reapPhase c tasks tries).1.map Prod.fst = tasks.map Prod.fst := by
  intro tasks
  induction tasks with
  | nil => intro tries; rfl
  | cons p rest ih =>
    intro tries
    rcases p with ⟨k, t⟩
    rcases heff : t.result.orElse (fun _ => c k) with _ | r
    · rw [reapPhase_cons_none c k t rest tries heff]
      simp [ih]
    · cases r
      · rw [reapPhase_cons_false c k t rest tries heff]
        simp [ih]
      · rw [reapPhase_cons_true c k t rest tries heff]
        simp [ih]

theorem reap_tries_outside (c : String → Option Bool) :
    ∀ (tasks : List (String × FutureB)) (tries : List (String × Nat)) (k : String),
      k ∉ tasks.map Prod.fst →
      alookup (reapPhase c tasks tries).2.1 k = alookup tries k := by
  intro tasks
  induction tasks with
  | nil => intro tries k _; rfl
  | cons p rest ih =>
    intro tries k hk
    rcases p with ⟨k0, t⟩
    have hne : k0 ≠ k := fun he => hk (by simp [he])
    have hrest : k ∉ rest.map Prod.fst := fun hmem => hk (by simp [hmem])
    rcases heff : t.result.orElse (fun _ => c k0) with _ | r
    · rw [reapPhase_cons_none c k0 t rest tries heff]
      exact ih tries k hrest
    · cases r
      · rw [reapPhase_cons_false c k0 t rest tries heff]
        rw [ih _ k hrest, alookup_ainsert_ne _ _ hne]
      · rw [reapPhase_cons_true c k0 t rest tries heff]
        rw [ih _ k hrest]
        by_cases hs : (alookup tries k0).isSome
        · rw [if_pos hs, alookup_ainsert_ne _ _ hne]
        · rw [if_neg hs]

theorem reap_done_subset (c : String → Option Bool) :
    ∀ (tasks : List (String × FutureB)) (tries : List (String × Nat)) (k : String),
      k ∈ (reapPhase c tasks tries).2.2 → k ∈ tasks.map Prod.fst := by
  intro tasks
  induction tasks with
  | nil => intro tries k h; exact absurd h (by simp [reapPhase])
  | cons p rest ih =>
    intro tries k h
    rcases p with ⟨k0, t⟩
    rcases heff : t.result.orElse (fun _ => c k0) with _ | r
    · rw [reapPhase_cons_none c k0 t rest tries heff] at h
      exact List.mem_cons_of_mem _ (ih _ k h)
    · cases r
      · rw [reapPhase_cons_false c k0 t rest tries heff] at h
        exact List.mem_cons_of_mem _ (ih _ k h)
      · rw [reapPhase_cons_true c k0 t rest tries heff] at h
        rcases List.mem_cons.mp h with rfl | h2
        · simp
        · exact List.mem_cons_of_mem _ (ih _ k h2)

theorem reap_done_nodup (c : String → Option Bool) :
    ∀ (tasks : List (String × FutureB)) (tries : List (String × Nat)),
      nodupKeys tasks → (reapPhase c tasks tries).2.2.Nodup := by
  intro tasks
  induction tasks with
  | nil => intro tries _; simp [reapPhase]
  | cons p rest ih =>
    intro tries hnd
    rcases p with ⟨k0, t⟩
    have hnd' : nodupKeys rest := (List.nodup_cons.mp hnd).2
    have hk0 : k0 ∉ rest.map Prod.fst := (List.nodup_cons.mp hnd).1
    rcases heff : t.result.orElse (fun _ => c k0) with _ | r
    · rw [reapPhase_cons_none c k0 t rest tries heff]
      exact ih _ hnd'
    · cases r
      · rw [reapPhase_cons_false c k0 t rest tries heff]
        exact ih _ hnd'
      · rw [reapPhase_cons_true c k0 t rest tries heff]
        refine List.nodup_cons.mpr ⟨fun hmem => hk0 (reap_done_subset c rest _ k0 hmem), ih _ hnd'⟩

theorem reap_tries_none_of_success (c : String → Option Bool) :
    ∀ (tasks : List (String × FutureB)) (tries : List (String × Nat))
      (k : String) (t : FutureB),
      nodupKeys tasks → alookup tasks k = some t →
      t.result.orElse (fun _ => c k) = some true → alookup tries k = none →
      alookup (reapPhase c tasks tries).2.1 k = none := by
  intro tasks
  induction tasks with
  | nil => intro tries k t _ hk; exact absurd hk (by simp)
  | cons p rest ih =>
    intro tries k t hnd hk hsucc htr
    rcases p with ⟨k0, t0⟩
    by_cases hke : k0 = k
    · subst hke
      have ht0 : t0 = t := by
        have := hk
        simp only [alookup_cons, if_pos rfl] at this
        exact Option.some.inj this
      subst ht0
      rw [reapPhase_cons_true c k0 t0 rest tries hsucc]
      have hs : ¬ (alookup tries k0).isSome := by simp [htr]
      rw [if_neg hs]
      exact (reap_tries_outside c rest tries k0 (List.nodup_cons.mp hnd).1).trans htr
    · have hk' : alookup rest k = some t := by
        simpa [alookup_cons, hke] using hk
      have hnd' : nodupKeys rest := (List.nodup_cons.mp hnd).2
      rcases heff : t0.result.orElse (fun _ => c k0) with _ | r
      · rw [reapPhase_cons_none c k0 t0 rest tries heff]
        exact ih tries k t hnd' hk' hsucc htr
      · cases r
        · rw [reapPhase_cons_false c k0 t0 rest tries heff]
          exact ih _ k t hnd' hk' hsucc (by rw [alookup_ainsert_ne _ _ hke]; exact htr)
        · rw [reapPhase_cons_true c k0 t0 rest tries heff]
          by_cases hs : (alookup tries k0).isSome
          · rw [if_pos hs]
            exact ih _ k t hnd' hk' hsucc (by rw [alookup_ainsert_ne _ _ hke]; exact htr)
          · rw [if_neg hs]
            exact ih _ k t hnd' hk' hsucc htr

theorem reap_done_of_success (c : String → Option Bool) :
    ∀ (tasks : List (String × FutureB)) (tries : List (String × Nat))
      (k : String) (t : FutureB),
      alookup tasks k = some t → t.result.orElse (fun _ => c k) = some true →
      k ∈ (reapPhase c tasks tries).2.2 := by
  intro tasks
  induction tasks with
  | nil => intro tries k t hk; exact absurd hk (by simp)
  | cons p rest ih =>
    intro tries k t hk hsucc
    rcases p with ⟨k0, t0⟩
    by_cases hke : k0 = k
    · subst hke
      have ht0 : t0 = t := by
        have := hk
        simp only [alookup_cons, if_pos rfl] at this
        exact Option.some.inj this
      subst ht0
      rw [reapPhase_cons_true c k0 t0 rest tries hsucc]
      simp
    · have hk' : alookup rest k = some t := by
        simpa [alookup_cons, hke] using hk
      rcases heff : t0.result.orElse (fun _ => c k0) with _ | r
      · rw [reapPhase_cons_none c k0 t0 rest tries heff]
        exact ih _ k t hk' hsucc
      · cases r
        · rw [reapPhase_cons_false c k0 t0 rest tries heff]
          exact ih _ k t hk' hsucc
        · rw [reapPhase_cons_true c k0 t0 rest tries heff]
          exact List.mem_cons_of_mem _ (ih _ k t hk' hsucc)

theorem reap_tasks_lookup (c : String → Option Bool) :
    ∀ (tasks : List (String × FutureB)) (tries : List (String × Nat))
      (k : String) (t : FutureB),
      nodupKeys tasks → alookup tasks k = some t →
      alookup (reapPhase c tasks tries).1 k
        = some ⟨t.batch, t.result.orElse (fun _ => c k)⟩ := by
  intro tasks
  induction tasks with
  | nil => intro tries k t _ hk; exact absurd hk (by simp)
  | cons p rest ih =>
    intro tries k t hnd hk
    rcases p with ⟨k0, t0⟩
    by_cases hke : k0 = k
    · have ht0 : t0 = t := by
        have := hk
        simp only [alookup_cons, if_pos hke] at this
        exact Option.some.inj this
      subst ht0
      subst hke
      rcases heff : t0.result.orElse (fun _ => c k0) with _ | r
      · rw [reapPhase_cons_none c k0 t0 rest tries heff]
        have hres : t0.result = none := by
          rcases hr : t0.result with _ | r0
          · rfl
          · rw [hr] at heff; simp [Option.orElse] at heff
        simp [alookup_cons, ← hres]
      · cases r
        · rw [reapPhase_cons_false c k0 t0 rest tries heff]
          simp [alookup_cons]
        · rw [reapPhase_cons_true c k0 t0 rest tries heff]
          simp [alookup_cons]
    · have hk' : alookup rest k = some t := by
        simpa [alookup_cons, hke] using hk
      have hnd' : nodupKeys rest := (List.nodup_cons.mp hnd).2
      rcases heff : t0.result.orElse (fun _ => c k0) with _ | r
      · rw [reapPhase_cons_none c k0 t0 rest tries heff]
        simp only [alookup_cons, if_neg hke]
        exact ih tries k t hnd' hk'
      · cases r
        · rw [reapPhase_cons_false c k0 t0 rest tries heff]
          simp only [alookup_cons, if_neg hke]
          exact ih _ k t hnd' hk'
        · rw [reapPhase_cons_true c k0 t0 rest tries heff]
          simp only [alookup_cons, if_neg hke]
          exact ih _ k t hnd' hk'

theorem reap_tries_nodup (c : String → Option Bool) :
    ∀ (tasks : List (String × FutureB)) (tries : List (String × Nat)),
      nodupKeys tries → nodupKeys (reapPhase c tasks tries).2.1 := by
  intro tasks
  induction tasks with
  | nil => intro tries h; exact h
  | cons p rest ih =>
    intro tries hnd
    rcases p with ⟨k0, t0⟩
    rcases heff : t0.result.orElse (fun _ => c k0) with _ | r
    · rw [reapPhase_cons_none c k0 t0 rest tries heff]
      exact ih tries hnd
    · cases r
      · rw [reapPhase_cons_false c k0 t0 rest tries heff]
        exact ih _ (nodupKeys_ainsert _ _ _ hnd)
      · rw [reapPhase_cons_true c k0 t0 rest tries heff]
        by_cases hs : (alookup tries k0).isSome
        · rw [if_pos hs]
          exact ih _ (nodupKeys_ainsert _ _ _ hnd)
        · rw [if_neg hs]
          exact ih _ hnd

theorem reap_done_result (c : String → Option Bool) :
    ∀ (tasks : List (String × FutureB)) (tries : List (String × Nat)) (k : String),
      nodupKeys tasks → k ∈ (reapPhase c tasks tries).2.2 →
      ∃ t', alookup (reapPhase c tasks tries).1 k = some t'
        ∧ t'.result = some true := by
  intro tasks
  induction tasks with
  | nil => intro tries k _ h; exact absurd h (by simp [reapPhase])
  | cons p rest ih =>
    intro tries k hnd hmem
    rcases p with ⟨k0, t0⟩
    have hk0nr : k0 ∉ rest.map Prod.fst := (List.nodup_cons.mp hnd).1
    have hnd' : nodupKeys rest := (List.nodup_cons.mp hnd).2
    rcases heff : t0.result.orElse (fun _ => c k0) with _ | r
    · rw [reapPhase_cons_none c k0 t0 rest tries heff] at hmem ⊢
      obtain ⟨t', ht', hres⟩ := ih tries k hnd' hmem
      have hke : k0 ≠ k := by
        intro he
        exact hk0nr (he ▸ reap_done_subset c rest tries k hmem)
      exact ⟨t', by simpa [alookup_cons, hke] using ht', hres⟩
    · cases r
      · rw [reapPhase_cons_false c k0 t0 rest tries heff] at hmem ⊢
        obtain ⟨t', ht', hres⟩ := ih _ k hnd' hmem
        have hke : k0 ≠ k := by
          intro he
          exact hk0nr (he ▸ reap_done_subset c rest _ k hmem)
        exact ⟨t', by simpa [alookup_cons, hke] using ht', hres⟩
      · rw [reapPhase_cons_true c k0 t0 rest tries heff] at hmem ⊢
        rcases List.mem_cons.mp hmem with rfl | hmem'
        · exact ⟨⟨t0.batch, some true⟩, by simp [alookup_cons], rfl⟩
        · obtain ⟨t', ht', hres⟩ := ih _ k hnd' hmem'
          have hke : k0 ≠ k := by
            intro he
            exact hk0nr (he ▸ reap_done_subset c rest _ k hmem')
          exact ⟨t', by simpa [alookup_cons, hke] using ht', hres⟩

theorem reap_tries_supported (c : String → Option Bool) :
    ∀ (tasks : List (String × FutureB)) (tries : List (String × Nat)),
      nodupKeys tasks →
      (∀ k n, alookup tries k = some n → k ∈ tasks.map Prod.fst →
        ∃ t, alookup tasks k = some t ∧ t.result = some false) →
      ∀ k n, alookup (reapPhase c tasks tries).2.1 k = some n →
        k ∈ tasks.map Prod.fst →
        ∃ t', alookup (reapPhase c tasks tries).1 k = some t'
          ∧ t'.result = some false := by
  intro tasks
  induction tasks with
  | nil => intro tries _ _ k n _ hmem; simp at hmem
  | cons p rest ih =>
    intro tries hnd H k n htr hmem
    rcases p with ⟨k0, t0⟩
    have hk0nr : k0 ∉ rest.map Prod.fst := (List.nodup_cons.mp hnd).1
    have hnd' : nodupKeys rest := (List.nodup_cons.mp hnd).2
    rcases heff : t0.result.orElse (fun _ => c k0) with _ | r
    · rw [reapPhase_cons_none c k0 t0 rest tries heff] at htr ⊢
      by_cases hke : k0 = k
      · subst hke
        rw [reap_tries_outside c rest tries k0 hk0nr] at htr
        obtain ⟨t, ht, hres⟩ := H k0 n htr (by simp)
        have ht0 : t = t0 := by
          simp only [alookup_cons, if_pos rfl] at ht
          exact (Option.some.inj ht).symm
        subst ht0
        rw [hres] at heff
        simp [Option.orElse] at heff
      · have H' : ∀ k' n', alookup tries k' = some n' → k' ∈ rest.map Prod.fst →
            ∃ t, alookup rest k' = some t ∧ t.result = some false := by
          intro k' n' htr' hmem'
          have hke' : k0 ≠ k' := fun he => hk0nr (he ▸ hmem')
          obtain ⟨t, ht, hres⟩ := H k' n' htr' (by simp [hmem'])
          exact ⟨t, by simpa [alookup_cons, hke'] using ht, hres⟩
        obtain ⟨t', ht', hres⟩ := ih tries hnd' H' k n htr
          (by rcases List.mem_cons.mp hmem with he | hm
              · exact absurd he.symm hke
              · exact hm)
        exact ⟨t', by simpa [alookup_cons, hke] using ht', hres⟩
    · cases r
      · rw [reapPhase_cons_false c k0 t0 rest tries heff] at htr ⊢
        by_cases hke : k0 = k
        · subst hke
          exact ⟨⟨t0.batch, some false⟩, by simp [alookup_cons], rfl⟩
        · have H' : ∀ k' n', alookup (ainsert tries k0 ((alookup tries k0).getD 0 + 1)) k'
                = some n' → k' ∈ rest.map Prod.fst →
              ∃ t, alookup rest k' = some t ∧ t.result = some false := by
            intro k' n' htr' hmem'
            have hke' : k0 ≠ k' := fun he => hk0nr (he ▸ hmem')
            rw [alookup_ainsert_ne _ _ hke'] at htr'
            obtain ⟨t, ht, hres⟩ := H k' n' htr' (by simp [hmem'])
            exact ⟨t, by simpa [alookup_cons, hke'] using ht, hres⟩
          obtain ⟨t', ht', hres⟩ := ih _ hnd' H' k n htr
            (by rcases List.mem_cons.mp hmem with he | hm
                · exact absurd he.symm hke
                · exact hm)
          exact ⟨t', by simpa [alookup_cons, hke] using ht', hres⟩
      · have htr_k0 : alookup tries k0 = none := by
          rcases hn0 : alookup tries k0 with _ | n0
          · rfl
          · obtain ⟨t, ht, hres⟩ := H k0 n0 hn0 (by simp)
            have ht0 : t = t0 := by
              simp only [alookup_cons, if_pos rfl] at ht
              exact (Option.some.inj ht).symm
            subst ht0
            rw [hres] at heff
            simp [Option.orElse] at heff
        have hs : ¬ (alookup tries k0).isSome := by simp [htr_k0]
        rw [reapPhase_cons_true c k0 t0 rest tries heff, if_neg hs] at htr ⊢
        by_cases hke : k0 = k
        · subst hke
          rw [reap_tries_outside c rest tries k0 hk0nr, htr_k0] at htr
          exact Option.noConfusion htr
        · have H' : ∀ k' n', alookup tries k' = some n' → k' ∈ rest.map Prod.fst →
              ∃ t, alookup rest k' = some t ∧ t.result = some false := by
            intro k' n' htr' hmem'
            have hke' : k0 ≠ k' := fun he => hk0nr (he ▸ hmem')
            obtain ⟨t, ht, hres⟩ := H k' n' htr' (by simp [hmem'])
            exact ⟨t, by simpa [alookup_cons, hke'] using ht, hres⟩
          obtain ⟨t', ht', hres⟩ := ih tries hnd' H' k n htr
            (by rcases List.mem_cons.mp hmem with he | hm
                · exact absurd he.symm hke
                · exact hm)
          exact ⟨t', by simpa [alookup_cons, hke] using ht', hres⟩

/-! #### Properties of the removal and eviction phases -/

theorem removalPhase_spec :
    ∀ (done : List String) (tasks : List (String × FutureB))
      (md : List (String × List InternalMessageModel)),
      done.Nodup →
      (∀ k ∈ done, (alookup tasks k).isSome) →
      (∀ k ∈ done, (alookup md k).isSome) →
      ∃ tasks' md' dels,
        removalPhase done tasks md = Except.ok (tasks', md', dels)
        ∧ (∀ k ∈ done, alookup tasks' k = none ∧ alookup md' k = none)
        ∧ (∀ k, k ∉ done →
            alookup tasks' k = alookup tasks k ∧ alookup md' k = alookup md k)
        ∧ (∀ k ∈ done, ∀ b, alookup md k = some b → ∀ m ∈ b, m ∈ dels) := by
  intro done
  induction done with
  | nil =>
    intro tasks md _ _ _
    exact ⟨tasks, md, [], rfl, by simp, fun k _ => ⟨rfl, rfl⟩, by simp⟩
  | cons k0 done' ih =>
    intro tasks md hnd hT hM
    have hk0nd : k0 ∉ done' := (List.nodup_cons.mp hnd).1
    obtain ⟨t0, ht0⟩ := Option.isSome_iff_exists.mp (hT k0 (by simp))
    obtain ⟨b0, hb0⟩ := Option.isSome_iff_exists.mp (hM k0 (by simp))
    obtain ⟨tasks', md', dels, hrec, hdone, hout, hdels⟩ :=
      ih (aerase tasks k0) (aerase md k0) (List.nodup_cons.mp hnd).2
        (fun k hk => by
          have hne : k0 ≠ k := fun he => hk0nd (he ▸ hk)
          rw [alookup_aerase, if_neg hne]
          exact hT k (by simp [hk]))
        (fun k hk => by
          have hne : k0 ≠ k := fun he => hk0nd (he ▸ hk)
          rw [alookup_aerase, if_neg hne]
          exact hM k (by simp [hk]))
    refine ⟨tasks', md', b0 ++ dels, ?_, ?_, ?_, ?_⟩
    · simp only [removalPhase]
      rw [show aget tasks k0 = Except.ok t0 by simp [aget, ht0], exceptBind_ok,
        show aget md k0 = Except.ok b0 by simp [aget, hb0], exceptBind_ok,
        hrec, exceptBind_ok]
    · intro k hk
      rcases List.mem_cons.mp hk with rfl | hk'
      · have := hout k hk0nd
        rw [this.1, this.2, alookup_aerase, alookup_aerase, if_pos rfl, if_pos rfl]
        exact ⟨rfl, rfl⟩
      · exact hdone k hk'
    · intro k hk
      have hne : k0 ≠ k := fun he => hk (by simp [he])
      have hk' : k ∉ done' := fun hmem => hk (by simp [hmem])
      have := hout k hk'
      rw [this.1, this.2, alookup_aerase, alookup_aerase, if_neg hne, if_neg hne]
      exact ⟨rfl, rfl⟩
    · intro k hk b hb m hm
      rcases List.mem_cons.mp hk with rfl | hk'
      · have : b = b0 := by rw [hb0] at hb; exact (Option.some.inj hb).symm
        exact List.mem_append.mpr (Or.inl (this ▸ hm))
      · have hne : k0 ≠ k := fun he => hk0nd (he ▸ hk')
        refine List.mem_append.mpr (Or.inr ?_)
        exact hdels k hk' b (by rw [alookup_aerase, if_neg hne]; exact hb) m hm

theorem removalPhase_nodup :
    ∀ (done : List String) (tasks : List (String × FutureB))
      (md : List (String × List InternalMessageModel)) (tasks' : List (String × FutureB))
      (md' : List (String × List InternalMessageModel)) (dels : List InternalMessageModel),
      removalPhase done tasks md = Except.ok (tasks', md', dels) →
      nodupKeys tasks → nodupKeys tasks' := by
  intro done
  induction done with
  | nil =>
    intro tasks md tasks' md' dels h hnd
    simp only [removalPhase] at h
    cases h
    exact hnd
  | cons k0 done' ih =>
    intro tasks md tasks' md' dels h hnd
    simp only [removalPhase] at h
    cases hg1 : aget tasks k0 with
    | error e => rw [hg1, exceptBind_error] at h; exact Except.noConfusion h
    | ok t0 =>
      rw [hg1, exceptBind_ok] at h
      cases hg2 : aget md k0 with
      | error e => rw [hg2, exceptBind_error] at h; exact Except.noConfusion h
      | ok b0 =>
        rw [hg2, exceptBind_ok] at h
        cases hrec : removalPhase done' (aerase tasks k0) (aerase md k0) with
        | error e => rw [hrec, exceptBind_error] at h; exact Except.noConfusion h
        | ok pr =>
          rw [hrec, exceptBind_ok] at h
          cases h
          exact ih _ _ pr.1 pr.2.1 pr.2.2 (by rw [hrec])
            (nodupKeys_aerase _ _ hnd)

theorem evictionGo_spec :
    ∀ (keys : List String) (tasks : List (String × FutureB))
      (tries : List (String × Nat)) (md : List (String × List InternalMessageModel)),
      keys.Nodup →
      (∀ k ∈ keys, (alookup tries k).isSome) →
      (∀ k ∈ keys, ∀ n, alookup tries k = some n → 3 < n →
        (alookup tasks k).isSome ∧ (alookup md k).isSome) →
      ∃ tasks' tries' md' dels,
        evictionGo keys tasks tries md = Except.ok (tasks', tries', md', dels)
        ∧ (∀ k ∈ keys, ∀ n, alookup tries k = some n → 3 < n →
            alookup tries' k = none ∧ alookup md' k = none
            ∧ alookup tasks' k = none
            ∧ ∀ b, alookup md k = some b → ∀ m ∈ b, m ∈ dels)
        ∧ (∀ k n, alookup tries k = some n → ¬ 3 < n →
            alookup tries' k = alookup tries k
            ∧ alookup tasks' k = alookup tasks k
            ∧ alookup md' k = alookup md k)
        ∧ (∀ k, k ∉ keys → alookup tries' k = alookup tries k
            ∧ alookup tasks' k = alookup tasks k
            ∧ alookup md' k = alookup md k) := by
  intro keys
  induction keys with
  | nil =>
    intro tasks tries md _ _ _
    exact ⟨tasks, tries, md, [], rfl, by simp, fun k n _ _ => ⟨rfl, rfl, rfl⟩,
      fun k _ => ⟨rfl, rfl, rfl⟩⟩
  | cons k0 keys' ih =>
    intro tasks tries md hnd hall hC
    have hk0nd : k0 ∉ keys' := (List.nodup_cons.mp hnd).1
    obtain ⟨n0, hn0⟩ := Option.isSome_iff_exists.mp (hall k0 (by simp))
    by_cases h3 : 3 < n0
    · obtain ⟨hTs, hMs⟩ := hC k0 (by simp) n0 hn0 h3
      obtain ⟨t0, ht0⟩ := Option.isSome_iff_exists.mp hTs
      obtain ⟨b0, hb0⟩ := Option.isSome_iff_exists.mp hMs
      obtain ⟨tasks', tries', md', dels, hrec, hclr, hkeep, hout⟩ :=
        ih (aerase tasks k0) (aerase tries k0) (aerase md k0)
          (List.nodup_cons.mp hnd).2
          (fun k hk => by
            have hne : k0 ≠ k := fun he => hk0nd (he ▸ hk)
            rw [alookup_aerase, if_neg hne]
            exact hall k (by simp [hk]))
          (fun k hk n hn hgt => by
            have hne : k0 ≠ k := fun he => hk0nd (he ▸ hk)
            rw [alookup_aerase, if_neg hne] at hn
            obtain ⟨h1, h2⟩ := hC k (by simp [hk]) n hn hgt
            rw [alookup_aerase, alookup_aerase, if_neg hne, if_neg hne]
            exact ⟨h1, h2⟩)
      refine ⟨tasks', tries', md', b0 ++ dels, ?_, ?_, ?_, ?_⟩
      · simp only [evictionGo]
        rw [show aget tries k0 = Except.ok n0 by simp [aget, hn0], exceptBind_ok,
          if_pos h3,
          show aget md k0 = Except.ok b0 by simp [aget, hb0], exceptBind_ok,
          show aget tasks k0 = Except.ok t0 by simp [aget, ht0], exceptBind_ok,
          hrec, exceptBind_ok]
      · intro k hk n hn hgt
        rcases List.mem_cons.mp hk with rfl | hk'
        · obtain ⟨e1, e2, e3⟩ := hout k hk0nd
          rw [e1, e2, e3, alookup_aerase, alookup_aerase, alookup_aerase,
            if_pos rfl, if_pos rfl, if_pos rfl]
          refine ⟨rfl, rfl, rfl, fun b hb m hm => ?_⟩
          have : b = b0 := by rw [hb0] at hb; exact (Option.some.inj hb).symm
          exact List.mem_append.mpr (Or.inl (this ▸ hm))
        · have hne : k0 ≠ k := fun he => hk0nd (he ▸ hk')
          obtain ⟨e1, e2, e3, e4⟩ := hclr k hk' n
            (by rw [alookup_aerase, if_neg hne]; exact hn) hgt
          refine ⟨e1, e2, e3, fun b hb m hm => ?_⟩
          refine List.mem_append.mpr (Or.inr ?_)
          exact e4 b (by rw [alookup_aerase, if_neg hne]; exact hb) m hm
      · intro k n hn hle
        have hne : k0 ≠ k := by
          intro he
          rw [← he, hn0] at hn
          exact hle ((Option.some.inj hn) ▸ h3)
        obtain ⟨e1, e2, e3⟩ := hkeep k n
          (by rw [alookup_aerase, if_neg hne]; exact hn) hle
        rw [e1, e2, e3, alookup_aerase, alookup_aerase, alookup_aerase,
          if_neg hne, if_neg hne, if_neg hne]
        exact ⟨rfl, rfl, rfl⟩
      · intro k hk
        have hne : k0 ≠ k := fun he => hk (by simp [he])
        have hk' : k ∉ keys' := fun hmem => hk (by simp [hmem])
        obtain ⟨e1, e2, e3⟩ := hout k hk'
        rw [e1, e2, e3, alookup_aerase, alookup_aerase, alookup_aerase,
          if_neg hne, if_neg hne, if_neg hne]
        exact ⟨rfl, rfl, rfl⟩
    · obtain ⟨tasks', tries', md', dels, hrec, hclr, hkeep, hout⟩ :=
        ih tasks tries md (List.nodup_cons.mp hnd).2
          (fun k hk => hall k (by simp [hk]))
          (fun k hk n hn hgt => hC k (by simp [hk]) n hn hgt)
      refine ⟨tasks', tries', md', dels, ?_, ?_, ?_, ?_⟩
      · simp only [evictionGo]
        rw [show aget tries k0 = Except.ok n0 by simp [aget, hn0], exceptBind_ok,
          if_neg h3]
        exact hrec
      · intro k hk n hn hgt
        rcases List.mem_cons.mp hk with rfl | hk'
        · rw [hn0] at hn
          exact absurd hgt ((Option.some.inj hn) ▸ h3)
        · exact hclr k hk' n hn hgt
      · intro k n hn hle
        exact hkeep k n hn hle
      · intro k hk
        exact hout k (fun hmem => hk (by simp [hmem]))

theorem evictionGo_nodup :
    ∀ (keys : List String) (tasks : List (String × FutureB))
      (tries : List (String × Nat)) (md : List (String × List InternalMessageModel))
      (tasks' : List (String × FutureB)) (tries' : List (String × Nat))
      (md' : List (String × List InternalMessageModel)) (dels : List InternalMessageModel),
      evictionGo keys tasks tries md = Except.ok (tasks', tries', md', dels) →
      nodupKeys tasks → nodupKeys tasks' := by
  intro keys
  induction keys with
  | nil =>
    intro tasks tries md tasks' tries' md' dels h hnd
    simp only [evictionGo] at h
    cases h
    exact hnd
  | cons k0 keys' ih =>
    intro tasks tries md tasks' tries' md' dels h hnd
    simp only [evictionGo] at h
    cases hg1 : aget tries k0 with
    | error e => rw [hg1, exceptBind_error] at h; exact Except.noConfusion h
    | ok n0 =>
      rw [hg1, exceptBind_ok] at h
      by_cases h3 : 3 < n0
      · rw [if_pos h3] at h
        cases hg2 : aget md k0 with
        | error e => rw [hg2, exceptBind_error] at h; exact Except.noConfusion h
        | ok b0 =>
          rw [hg2, exceptBind_ok] at h
          cases hg3 : aget tasks k0 with
          | error e => rw [hg3, exceptBind_error] at h; exact Except.noConfusion h
          | ok t0 =>
            rw [hg3, exceptBind_ok] at h
            cases hrec : evictionGo keys' (aerase tasks k0) (aerase tries k0)
                (aerase md k0) with
            | error e => rw [hrec, exceptBind_error] at h; exact Except.noConfusion h
            | ok pr =>
              rw [hrec, exceptBind_ok] at h
              cases h
              exact ih _ _ _ pr.1 pr.2.1 pr.2.2.1 pr.2.2.2 (by rw [hrec])
                (nodupKeys_aerase _ _ hnd)
      · rw [if_neg h3] at h
        exact ih _ _ _ _ _ _ _ h hnd

theorem keys_aerase_sublist {V : Type} (m : List (String × V)) (k : String) :
    ((aerase m k).map Prod.fst).Sublist (m.map Prod.fst) :=
  List.Sublist.map _ (List.filter_sublist m)

theorem removalPhase_keys_sublist :
    ∀ (done : List String) (tasks : List (String × FutureB))
      (md : List (String × List InternalMessageModel))
      (tasks' : List (String × FutureB))
      (md' : List (String × List InternalMessageModel))
      (dels : List InternalMessageModel),
      removalPhase done tasks md = Except.ok (tasks', md', dels) →
      (tasks'.map Prod.fst).Sublist (tasks.map Prod.fst)
      ∧ (md'.map Prod.fst).Sublist (md.map Prod.fst) := by
  intro done
  induction done with
  | nil =>
    intro tasks md tasks' md' dels h
    simp only [removalPhase] at h
    cases h
    exact ⟨List.Sublist.refl _, List.Sublist.refl _⟩
  | cons k0 done' ih =>
    intro tasks md tasks' md' dels h
    simp only [removalPhase] at h
    cases hg1 : aget tasks k0 with
    | error e => rw [hg1, exceptBind_error] at h; exact Except.noConfusion h
    | ok t0 =>
      rw [hg1, exceptBind_ok] at h
      cases hg2 : aget md k0 with
      | error e => rw [hg2, exceptBind_error] at h; exact Except.noConfusion h
      | ok b0 =>
        rw [hg2, exceptBind_ok] at h
        cases hrec : removalPhase done' (aerase tasks k0) (aerase md k0) with
        | error e => rw [hrec, exceptBind_error] at h; exact Except.noConfusion h
        | ok pr =>
          rw [hrec, exceptBind_ok] at h
          cases h
          obtain ⟨h1, h2⟩ := ih _ _ pr.1 pr.2.1 pr.2.2 (by rw [hrec])
          exact ⟨h1.trans (keys_aerase_sublist tasks k0),
            h2.trans (keys_aerase_sublist md k0)⟩

theorem evictionGo_keys_sublist :
    ∀ (keys : List String) (tasks : List (String × FutureB))
      (tries : List (String × Nat)) (md : List (String × List InternalMessageModel))
      (tasks' : List (String × FutureB)) (tries' : List (String × Nat))
      (md' : List (String × List InternalMessageModel)) (dels : List InternalMessageModel),
      evictionGo keys tasks tries md = Except.ok (tasks', tries', md', dels) →
      (tasks'.map Prod.fst).Sublist (tasks.map Prod.fst)
      ∧ (tries'.map Prod.fst).Sublist (tries.map Prod.fst)
      ∧ (md'.map Prod.fst).Sublist (md.map Prod.fst) := by
  intro keys
  induction keys with
  | nil =>
    intro tasks tries md tasks' tries' md' dels h
    simp only [evictionGo] at h
    cases h
    exact ⟨List.Sublist.refl _, List.Sublist.refl _, List.Sublist.refl _⟩
  | cons k0 keys' ih =>
    intro tasks tries md tasks' tries' md' dels h
    simp only [evictionGo] at h
    cases hg1 : aget tries k0 with
    | error e => rw [hg1, exceptBind_error] at h; exact Except.noConfusion h
    | ok n0 =>
      rw [hg1, exceptBind_ok] at h
      by_cases h3 : 3 < n0
      · rw [if_pos h3] at h
        cases hg2 : aget md k0 with
        | error e => rw [hg2, exceptBind_error] at h; exact Except.noConfusion h
        | ok b0 =>
          rw [hg2, exceptBind_ok] at h
          cases hg3 : aget tasks k0 with
          | error e => rw [hg3, exceptBind_error] at h; exact Except.noConfusion h
          | ok t0 =>
            rw [hg3, exceptBind_ok] at h
            cases hrec : evictionGo keys' (aerase tasks k0) (aerase tries k0)
                (aerase md k0) with
            | error e => rw [hrec, exceptBind_error] at h; exact Except.noConfusion h
            | ok pr =>
              rw [hrec, exceptBind_ok] at h
              cases h
              obtain ⟨h1, h2, h3'⟩ := ih _ _ _ pr.1 pr.2.1 pr.2.2.1 pr.2.2.2
                (by rw [hrec])
              exact ⟨h1.trans (keys_aerase_sublist tasks k0),
                h2.trans (keys_aerase_sublist tries k0),
                h3'.trans (keys_aerase_sublist md k0)⟩
      · rw [if_neg h3] at h
        exact ih _ _ _ _ _ _ _ h

/-! ### Claims about the Main Loop's bookkeeping -/

/-- C2. In any completed cycle of the Main Loop, a task is submitted for a
composite key only if no task for that key was tracked in the in-flight map
at the cycle's start (the scan-phase guard `if composite_key not in tasks`),
no key is submitted twice within the cycle, and the in-flight map holds at
most one task per key afterwards. -/
theorem single_flight_per_key (workers : Nat) (s : LoopState)
    (messages : List InternalMessageModel) (complete : String → Option Bool)
    (s' : LoopState) (subs : List (String × List InternalMessageModel))
    (dels : List InternalMessageModel)
    (hndT : nodupKeys s.tasks) (hndM : nodupKeys s.messages_dict)
    (h : processerCycle workers s messages complete = Except.ok (s', subs, dels)) :
    (∀ p ∈ subs, alookup s.tasks p.1 = none)
    ∧ (subs.map Prod.fst).Nodup
    ∧ nodupKeys s'.tasks := by
  obtain ⟨hklnd, hklfresh, _, _, _⟩ :=
    scanPhase_inv s.tasks s.messages_dict messages hndM
  rcases hscan : scanPhase s.tasks s.messages_dict messages with ⟨kl, md1⟩
  rw [hscan] at hklnd hklfresh
  simp only at hklnd hklfresh
  simp only [processerCycle, hscan] at h
  cases hsub : submitPhase workers s.tasks md1 kl with
  | error e => rw [hsub, exceptBind_error] at h; exact Except.noConfusion h
  | ok pr =>
    rcases pr with ⟨tasks1, subs1⟩
    rw [hsub, exceptBind_ok] at h
    rcases hreap : reapPhase complete tasks1 s.tries with ⟨tasks2, tries2, done⟩
    simp only [hreap] at h
    cases hrem : removalPhase done tasks2 md1 with
    | error e => rw [hrem, exceptBind_error] at h; exact Except.noConfusion h
    | ok pr2 =>
      rcases pr2 with ⟨tasks3, md3, dels1⟩
      rw [hrem, exceptBind_ok] at h
      cases hev : evictionPhase tasks3 tries2 md3 with
      | error e => rw [hev, exceptBind_error] at h; exact Except.noConfusion h
      | ok pr3 =>
        rcases pr3 with ⟨tasks4, tries4, md4, dels2⟩
        rw [hev, exceptBind_ok] at h
        have hinj := Except.ok.inj h
        rw [Prod.mk.injEq, Prod.mk.injEq] at hinj
        obtain ⟨h1, h2, h3⟩ := hinj
        subst h2
        subst h1
        have hsubl := submitPhase_subs_sublist workers kl s.tasks md1 tasks1 subs1 hsub
        refine ⟨?_, hklnd.sublist hsubl, ?_⟩
        · intro p hp
          exact hklfresh p.1 (hsubl.subset (List.mem_map_of_mem Prod.fst hp))
        · have n1 : nodupKeys tasks1 :=
            submitPhase_nodup workers kl s.tasks md1 tasks1 subs1 hsub hndT
          have n2 : nodupKeys tasks2 := by
            have hkeys := reap_tasks_keys complete tasks1 s.tries
            rw [hreap] at hkeys
            unfold nodupKeys
            rw [show tasks2.map Prod.fst = tasks1.map Prod.fst from hkeys]
            exact n1
          have n3 : nodupKeys tasks3 :=
            removalPhase_nodup done tasks2 md1 tasks3 md3 dels1 hrem n2
          rw [evictionPhase] at hev
          exact evictionGo_nodup _ tasks3 tries2 md3 tasks4 tries4 md4 dels2 hev n3

/-- Closed witness for `single_flight_per_key`: one fresh conversation scanned
from the empty state is submitted exactly once. -/
theorem single_flight_per_key_witness :
    (∀ p ∈ [("5531000001_5531999999", [mA])], alookup initialLoopState.tasks p.1 = none)
    ∧ (([("5531000001_5531999999", [mA])].map Prod.fst).Nodup)
    ∧ nodupKeys (LoopState.mk [("5531000001_5531999999", ⟨[mA], none⟩)] []
        [("5531000001_5531999999", [mA])]).tasks :=
  single_flight_per_key 10 initialLoopState [mA] (fun _ => none)
    ⟨[("5531000001_5531999999", ⟨[mA], none⟩)], [],
      [("5531000001_5531999999", [mA])]⟩
    [("5531000001_5531999999", [mA])] []
    (by decide) (by decide) rfl

/-- C4. When the task for a key completes successfully, the reap and
removal steps of the cycle delete the key's buffered group from the Event
Store (`database.delete_messages(messages_dict[key])`) and drop its batch and
task handle, and the key's retry counter afterwards reads 0 (it is untracked).
The hypotheses are the loop's bookkeeping consistency: a key with a recorded
failure count still holds its (permanently failed) future — which is why the
source's sentinel branch `tries[key] = 4` can never fire on a success — and
an in-flight key's buffered batch is the batch its task was submitted on. -/
theorem success_removes_and_clears (complete : String → Option Bool)
    (tasks : List (String × FutureB)) (tries : List (String × Nat))
    (md : List (String × List InternalMessageModel)) (k : String) (t : FutureB)
    (hnd : nodupKeys tasks)
    (hA : ∀ k' n, alookup tries k' = some n →
        ∃ t', alookup tasks k' = some t' ∧ t'.result = some false)
    (hB : ∀ k' t', alookup tasks k' = some t' → alookup md k' = some t'.batch)
    (hk : alookup tasks k = some t)
    (hsucc : t.result.orElse (fun _ => complete k) = some true) :
    ∃ tasks' md' dels,
      removalPhase (reapPhase complete tasks tries).2.2
          (reapPhase complete tasks tries).1 md
        = Except.ok (tasks', md', dels)
      ∧ (alookup (reapPhase complete tasks tries).2.1 k).getD 0 = 0
      ∧ alookup tasks' k = none
      ∧ alookup md' k = none
      ∧ (∀ m ∈ t.batch, m ∈ dels) := by
  have htr : alookup tries k = none := by
    rcases hn : alookup tries k with _ | n
    · rfl
    · obtain ⟨t', ht', hres⟩ := hA k n hn
      rw [hk] at ht'
      have : t' = t := (Option.some.inj ht').symm
      subst this
      rw [hres] at hsucc
      simp [Option.orElse] at hsucc
  have hdonemem : k ∈ (reapPhase complete tasks tries).2.2 :=
    reap_done_of_success complete tasks tries k t hk hsucc
  obtain ⟨tasks', md', dels, hok, hdone, hout, hdels⟩ :=
    removalPhase_spec (reapPhase complete tasks tries).2.2
      (reapPhase complete tasks tries).1 md
      (reap_done_nodup complete tasks tries hnd)
      (fun k' hk' => by
        rw [alookup_isSome_iff, reap_tasks_keys]
        exact reap_done_subset complete tasks tries k' hk')
      (fun k' hk' => by
        have hmem := reap_done_subset complete tasks tries k' hk'
        obtain ⟨t', ht'⟩ := Option.isSome_iff_exists.mp
          ((alookup_isSome_iff tasks k').mpr hmem)
        rw [Option.isSome_iff_exists]
        exact ⟨t'.batch, hB k' t' ht'⟩)
  refine ⟨tasks', md', dels, hok, ?_, (hdone k hdonemem).1, (hdone k hdonemem).2, ?_⟩
  · rw [reap_tries_none_of_success complete tasks tries k t hnd hk hsucc htr]
    rfl
  · exact hdels k hdonemem t.batch (hB k t hk)

/-- Closed witness for `success_removes_and_clears`: a single in-flight key
whose future completed `True`. -/
theorem success_removes_and_clears_witness :
    ∃ tasks' md' dels,
      removalPhase
          (reapPhase (fun _ => none)
            [("5531000001_5531999999", ⟨[mA], some true⟩)] []).2.2
          (reapPhase (fun _ => none)
            [("5531000001_5531999999", ⟨[mA], some true⟩)] []).1
          [("5531000001_5531999999", [mA])]
        = Except.ok (tasks', md', dels)
      ∧ (alookup (reapPhase (fun _ => none)
            [("5531000001_5531999999", ⟨[mA], some true⟩)] []).2.1
          "5531000001_5531999999").getD 0 = 0
      ∧ alookup tasks' "5531000001_5531999999" = none
      ∧ alookup md' "5531000001_5531999999" = none
      ∧ (∀ m ∈ (FutureB.mk [mA] (some true)).batch, m ∈ dels) :=
  success_removes_and_clears (fun _ => none)
    [("5531000001_5531999999", ⟨[mA], some true⟩)] []
    [("5531000001_5531999999", [mA])] "5531000001_5531999999" ⟨[mA], some true⟩
    (by decide)
    (fun k' n h => by simp at h)
    (fun k' t' h => by
      by_cases hc : ("5531000001_5531999999" : String) = k'
      · simp only [alookup_cons, if_pos hc] at h
        cases h
        simp [alookup_cons, hc]
      · simp [alookup_cons, if_neg hc] at h)
    (by simp [alookup_cons])
    (by decide)

/-- C5 (amended). For every key whose attempt counter exceeds 3 and whose
buffered batch and task handle are still tracked (true of every key the loop
can put in `tries`), the eviction phase deletes the key's *buffered batch*
from the Event Store and clears its retry counter, its buffered batch, and
its task handle.  Queued events of that conversation that were never buffered
(they arrived after the key's task was submitted, so the scan skipped them)
are not removed — see the counterexample. -/
theorem eviction_clears_tracked_state (tasks : List (String × FutureB))
    (tries : List (String × Nat))
    (md : List (String × List InternalMessageModel))
    (hnd : nodupKeys tries)
    (hC : ∀ k n, alookup tries k = some n → 3 < n →
        (alookup tasks k).isSome ∧ (alookup md k).isSome) :
    ∃ tasks' tries' md' dels,
      evictionPhase tasks tries md = Except.ok (tasks', tries', md', dels)
      ∧ ∀ k n, alookup tries k = some n → 3 < n →
          alookup tries' k = none ∧ alookup md' k = none
          ∧ alookup tasks' k = none
          ∧ ∀ b, alookup md k = some b → ∀ m ∈ b, m ∈ dels := by
  obtain ⟨tasks', tries', md', dels, hok, hclr, _, _⟩ :=
    evictionGo_spec (tries.map Prod.fst) tasks tries md hnd
      (fun k hk => (alookup_isSome_iff tries k).mpr hk)
      (fun k _ n hn hgt => hC k n hn hgt)
  refine ⟨tasks', tries', md', dels, hok, fun k n hn hgt => ?_⟩
  have hmem : k ∈ tries.map Prod.fst :=
    (alookup_isSome_iff tries k).mp (by simp [hn])
  exact hclr k hmem n hn hgt

/-- Closed witness for `eviction_clears_tracked_state`: one key at attempt
count 4 with its batch and (failed) task handle tracked. -/
theorem eviction_clears_tracked_state_witness :
    ∃ tasks' tries' md' dels,
      evictionPhase [("5531000001_5531999999", ⟨[mA], some false⟩)]
          [("5531000001_5531999999", 4)] [("5531000001_5531999999", [mA])]
        = Except.ok (tasks', tries', md', dels)
      ∧ ∀ k n, alookup [("5531000001_5531999999", 4)] k = some n → 3 < n →
          alookup tries' k = none ∧ alookup md' k = none
          ∧ alookup tasks' k = none
          ∧ ∀ b, alookup [("5531000001_5531999999", [mA])] k = some b →
              ∀ m ∈ b, m ∈ dels :=
  eviction_clears_tracked_state
    [("5531000001_5531999999", ⟨[mA], some false⟩)]
    [("5531000001_5531999999", 4)] [("5531000001_5531999999", [mA])]
    (by decide)
    (fun k n h _ => by
      by_cases hc : ("5531000001_5531999999" : String) = k
      · subst hc; exact ⟨by simp [alookup_cons], by simp [alookup_cons]⟩
      · simp [alookup_cons, if_neg hc] at h)

/-- C5 counterexample. A key reaches attempt count 4 in a cycle where a
*newly eligible* queued event `mB` of the same conversation is being scanned
(the scan skips it because the key is in `tasks`).  Eviction deletes only the
buffered batch `[mA]`; the queued event `mB` of the evicted key survives in
the Event Store, refuting "removes all of that key's currently queued events
unconditionally". -/
theorem eviction_misses_untracked_counterexample :
    processerCycle 10
        ⟨[("5531000001_5531999999", ⟨[mA], some false⟩)],
          [("5531000001_5531999999", 3)], [("5531000001_5531999999", [mA])]⟩
        [mB] (fun _ => none)
      = Except.ok (⟨[], [], []⟩, [], [mA])
    ∧ composite_key mB = "5531000001_5531999999"
    ∧ mB ∉ [mA] :=
  ⟨rfl, rfl, by decide⟩

/-! #### The loop's bookkeeping invariant

`LoopInv` packages the consistency facts the claim theorems above assume:
unique dict keys; every key with a recorded failure count still holds its
(permanently failed) task handle; and every in-flight key's buffered batch is
the batch its task was submitted on.  It holds in the initial state and is
preserved by every cycle — and under it a cycle never raises `KeyError`. -/

def LoopInv (s : LoopState) : Prop :=
  nodupKeys s.tasks ∧ nodupKeys s.tries ∧ nodupKeys s.messages_dict
  ∧ (∀ k n, alookup s.tries k = some n →
      ∃ t, alookup s.tasks k = some t ∧ t.result = some false)
  ∧ (∀ k t, alookup s.tasks k = some t →
      alookup s.messages_dict k = some t.batch)

theorem initialLoopState_inv : LoopInv initialLoopState := by
  refine ⟨?_, ?_, ?_, ?_, ?_⟩
  · simp [initialLoopState, nodupKeys]
  · simp [initialLoopState, nodupKeys]
  · simp [initialLoopState, nodupKeys]
  · intro k n h; simp [initialLoopState] at h
  · intro k t h; simp [initialLoopState] at h

/-- Under the bookkeeping invariant a cycle of the Main Loop completes
without a `KeyError` and re-establishes the invariant. -/
theorem processerCycle_inv (workers : Nat) (s : LoopState)
    (messages : List InternalMessageModel) (complete : String → Option Bool)
    (hinv : LoopInv s) :
    ∃ s' subs dels,
      processerCycle workers s messages complete = Except.ok (s', subs, dels)
      ∧ LoopInv s' := by
  obtain ⟨hndT, hndR, hndM, hA, hB⟩ := hinv
  obtain ⟨hklnd, hklfresh, hklsome, hmd1nd, hmd1keep⟩ :=
    scanPhase_inv s.tasks s.messages_dict messages hndM
  rcases hscan : scanPhase s.tasks s.messages_dict messages with ⟨kl, md1⟩
  rw [hscan] at hklnd hklfresh hklsome hmd1nd hmd1keep
  simp only at hklnd hklfresh hklsome hmd1nd hmd1keep
  have hB1 : ∀ k t, alookup s.tasks k = some t → alookup md1 k = some t.batch := by
    intro k t hk
    rw [hmd1keep k (by simp [hk])]
    exact hB k t hk
  obtain ⟨tasks1, subs1, hsub⟩ := submitPhase_ok workers kl s.tasks md1 hklsome
  have hndT1 : nodupKeys tasks1 :=
    submitPhase_nodup workers kl s.tasks md1 tasks1 subs1 hsub hndT
  have hA1 : ∀ k n, alookup s.tries k = some n →
      ∃ t, alookup tasks1 k = some t ∧ t.result = some false := by
    intro k n hn
    obtain ⟨t, ht, hres⟩ := hA k n hn
    exact ⟨t, submitPhase_lookup_old workers kl s.tasks md1 tasks1 subs1 hsub
      hklfresh hklnd k t ht, hres⟩
  have hB1' : ∀ k t', alookup tasks1 k = some t' →
      alookup md1 k = some t'.batch := by
    intro k t' ht'
    rcases submitPhase_lookup_char workers kl s.tasks md1 tasks1 subs1 hsub
        k t' ht' with hold | ⟨hmd, _⟩
    · exact hB1 k t' hold
    · exact hmd
  rcases hreap : reapPhase complete tasks1 s.tries with ⟨tasks2, tries2, done⟩
  have hkeys2 : tasks2.map Prod.fst = tasks1.map Prod.fst := by
    have h := reap_tasks_keys complete tasks1 s.tries
    rw [hreap] at h
    exact h
  have hndT2 : nodupKeys tasks2 := by
    unfold nodupKeys
    rw [hkeys2]
    exact hndT1
  have hndR2 : nodupKeys tries2 := by
    have h := reap_tries_nodup complete tasks1 s.tries hndR
    rw [hreap] at h
    exact h
  have hdonend : done.Nodup := by
    have h := reap_done_nodup complete tasks1 s.tries hndT1
    rw [hreap] at h
    exact h
  have hdonesub : ∀ k ∈ done, k ∈ tasks1.map Prod.fst := by
    intro k hk
    have h := reap_done_subset complete tasks1 s.tries k
    rw [hreap] at h
    exact h hk
  have hA2 : ∀ k n, alookup tries2 k = some n →
      ∃ t', alookup tasks2 k = some t' ∧ t'.result = some false := by
    intro k n hn
    by_cases hmem : k ∈ tasks1.map Prod.fst
    · have h := reap_tries_supported complete tasks1 s.tries hndT1
        (fun k' n' h' _ => hA1 k' n' h') k n
      rw [hreap] at h
      exact h hn hmem
    · have hout : alookup tries2 k = alookup s.tries k := by
        have h := reap_tries_outside complete tasks1 s.tries k hmem
        rw [hreap] at h
        exact h
      rw [hout] at hn
      obtain ⟨t, ht, _⟩ := hA1 k n hn
      exact absurd ((alookup_isSome_iff tasks1 k).mp (by simp [ht])) hmem
  have hB2 : ∀ k t', alookup tasks2 k = some t' →
      alookup md1 k = some t'.batch := by
    intro k t' ht'
    have hmem : k ∈ tasks1.map Prod.fst := by
      rw [← hkeys2]
      exact (alookup_isSome_iff tasks2 k).mp (by simp [ht'])
    obtain ⟨t1, ht1⟩ := Option.isSome_iff_exists.mp
      ((alookup_isSome_iff tasks1 k).mpr hmem)
    have h := reap_tasks_lookup complete tasks1 s.tries k t1 hndT1 ht1
    rw [hreap] at h
    rw [h] at ht'
    have he : (⟨t1.batch, t1.result.orElse fun _ => complete k⟩ : FutureB) = t' :=
      Option.some.inj ht'
    rw [← he]
    exact hB1' k t1 ht1
  obtain ⟨tasks3, md3, dels1, hok1, hdone3, hout3, _⟩ :=
    removalPhase_spec done tasks2 md1 hdonend
      (fun k hk => (alookup_isSome_iff tasks2 k).mpr
        (by rw [hkeys2]; exact hdonesub k hk))
      (fun k hk => by
        obtain ⟨t', ht'⟩ := Option.isSome_iff_exists.mp
          ((alookup_isSome_iff tasks2 k).mpr
            (by rw [hkeys2]; exact hdonesub k hk))
        exact Option.isSome_iff_exists.mpr ⟨t'.batch, hB2 k t' ht'⟩)
  have hndT3 : nodupKeys tasks3 :=
    removalPhase_nodup done tasks2 md1 tasks3 md3 dels1 hok1 hndT2
  have hndM3 : nodupKeys md3 :=
    hmd1nd.sublist
      (removalPhase_keys_sublist done tasks2 md1 tasks3 md3 dels1 hok1).2
  have hnotdone : ∀ k n, alookup tries2 k = some n → k ∉ done := by
    intro k n hn hkdone
    obtain ⟨tf, htf, hresf⟩ := hA2 k n hn
    have h := reap_done_result complete tasks1 s.tries k hndT1
    rw [hreap] at h
    obtain ⟨tt, htt, hrest⟩ := h hkdone
    rw [htf] at htt
    rw [← Option.some.inj htt, hresf] at hrest
    exact Bool.noConfusion (Option.some.inj hrest)
  have hA3 : ∀ k n, alookup tries2 k = some n →
      ∃ t', alookup tasks3 k = some t' ∧ t'.result = some false := by
    intro k n hn
    obtain ⟨t', ht', hres⟩ := hA2 k n hn
    rw [← (hout3 k (hnotdone k n hn)).1] at ht'
    exact ⟨t', ht', hres⟩
  have hB3 : ∀ k t', alookup tasks3 k = some t' →
      alookup md3 k = some t'.batch := by
    intro k t' ht'
    by_cases hk : k ∈ done
    · rw [(hdone3 k hk).1] at ht'
      exact Option.noConfusion ht'
    · rw [(hout3 k hk).1] at ht'
      rw [(hout3 k hk).2]
      exact hB2 k t' ht'
  obtain ⟨tasks4, tries4, md4, dels2, hok2, hclr, hkeep, hout4⟩ :=
    evictionGo_spec (tries2.map Prod.fst) tasks3 tries2 md3 hndR2
      (fun k hk => (alookup_isSome_iff tries2 k).mpr hk)
      (fun k _ n hn _ => by
        obtain ⟨t', ht', _⟩ := hA3 k n hn
        exact ⟨by simp [ht'], by simp [hB3 k t' ht']⟩)
  refine ⟨⟨tasks4, tries4, md4⟩, subs1, dels1 ++ dels2, ?_, ?_, ?_, ?_, ?_, ?_⟩
  · simp only [processerCycle, hscan]
    rw [hsub, exceptBind_ok]
    simp only [hreap]
    rw [hok1, exceptBind_ok, evictionPhase, hok2, exceptBind_ok]
  · exact evictionGo_nodup _ tasks3 tries2 md3 tasks4 tries4 md4 dels2 hok2 hndT3
  · exact hndR2.sublist
      (evictionGo_keys_sublist _ tasks3 tries2 md3 tasks4 tries4 md4 dels2 hok2).2.1
  · exact hndM3.sublist
      (evictionGo_keys_sublist _ tasks3 tries2 md3 tasks4 tries4 md4 dels2 hok2).2.2
  · intro k n hn
    rcases hn2 : alookup tries2 k with _ | n2
    · obtain ⟨e1, _, _⟩ := hout4 k ((alookup_eq_none_iff tries2 k).mp hn2)
      rw [e1, hn2] at hn
      exact Option.noConfusion hn
    · by_cases h3 : 3 < n2
      · obtain ⟨e1, _, _, _⟩ := hclr k
          ((alookup_isSome_iff tries2 k).mp (by simp [hn2])) n2 hn2 h3
        rw [e1] at hn
        exact Option.noConfusion hn
      · obtain ⟨_, e2, _⟩ := hkeep k n2 hn2 h3
        obtain ⟨t', ht', hres⟩ := hA3 k n2 hn2
        exact ⟨t', by rw [e2]; exact ht', hres⟩
  · intro k t' ht'
    rcases hn2 : alookup tries2 k with _ | n2
    · obtain ⟨_, e2, e3⟩ := hout4 k ((alookup_eq_none_iff tries2 k).mp hn2)
      rw [e2] at ht'
      rw [e3]
      exact hB3 k t' ht'
    · by_cases h3 : 3 < n2
      · obtain ⟨_, _, e3, _⟩ := hclr k
          ((alookup_isSome_iff tries2 k).mp (by simp [hn2])) n2 hn2 h3
        rw [e3] at ht'
        exact Option.noConfusion ht'
      · obtain ⟨_, e2, e3⟩ := hkeep k n2 hn2 h3
        rw [e2] at ht'
        rw [e3]
        exact hB3 k t' ht'

/-- Any number of cycles run from a consistent state (in particular from the
initial empty state) completes without `KeyError` and keeps the invariant. -/
theorem processerRun_inv (workers : Nat) :
    ∀ (cycles : List (List InternalMessageModel × (String → Option Bool)))
      (s : LoopState), LoopInv s →
      ∃ s' subs dels,
        processerRun workers s cycles = Except.ok (s', subs, dels)
        ∧ LoopInv s' := by
  intro cycles
  induction cycles with
  | nil => intro s hinv; exact ⟨s, [], [], rfl, hinv⟩
  | cons cyc rest ih =>
    intro s hinv
    obtain ⟨s1, subs1, dels1, h1, hinv1⟩ :=
      processerCycle_inv workers s cyc.1 cyc.2 hinv
    obtain ⟨s2, subs2, dels2, h2, hinv2⟩ := ih s1 hinv1
    refine ⟨s2, subs1 ++ subs2, dels1 ++ dels2, ?_, hinv2⟩
    show processerRun workers s (cyc :: rest) = _
    rcases cyc with ⟨msgs, complete⟩
    simp only [processerRun]
    rw [h1, exceptBind_ok, h2, exceptBind_ok]

/-! ### `src/services/chatbot.py` — cooldown / echo-suppression guard

Datetimes are modelled as `Int` seconds: the code only compares them and
takes differences of `total_seconds()`.  A chat-message row carries optional
content and an optional `sent_at`. -/

structure ChatMessageRow where
  content : Option String
  sent_at : Option Int
deriving DecidableEq, Repr

/-- Method `ChatBot._should_store_message`; `last_llm` is
`get_last_message_from_sender(db, chat_id, "llm")`, the most recent stored
automated reply of the conversation. -/
def should_store_message (who_sent : String) (content : Option String)
    (sent_at : Int) (last_llm : Option ChatMessageRow) : Bool :=
  if who_sent ≠ "hum" then true
  else
    match last_llm with
    | none => true
    | some last_llm_msg =>
      match last_llm_msg.sent_at with
      | none => true
      | some last_llm_dt =>
        if |sent_at - last_llm_dt| ≤ 20
            ∧ (last_llm_msg.content.getD "").trim = (content.getD "").trim
        then false
        else true

/-- Constant `ChatBot.HUMAN_COOLDOWN = timedelta(minutes=5)`, in seconds. -/
def HUMAN_COOLDOWN : Int := 300

/-- Python `if reference_time < last_human_dt: reference_time = last_human_dt` — the
per-conversation reference clock is never moved backward. -/
def clampReference (reference_time last_human_dt : Int) : Int :=
  if reference_time < last_human_dt then last_human_dt else reference_time

/-- Method `ChatBot._is_human_cooldown_active`; `last_human` is
`get_last_message_from_sender(db, chat_id, "hum")`. -/
def is_human_cooldown_active (last_sender : String)
    (last_human : Option ChatMessageRow) (reference_time : Int) : Bool :=
  if last_sender = "hum" then true
  else
    match last_human with
    | none => false
    | some last_human_msg =>
      match last_human_msg.sent_at with
      | none => false
      | some last_human_dt =>
        decide (clampReference reference_time last_human_dt - last_human_dt
          ≤ HUMAN_COOLDOWN)

/-- The dispatch-gating slice of `ChatBot.run` (after message storage):
returns the response string and whether the LLM path (`chatbot_graph.run`)
was invoked. -/
def run_dispatch (use_llm : Bool) (last_sender : String)
    (last_human : Option ChatMessageRow) (reference_time : Int)
    (llm_message : String) : String × Bool :=
  if ¬ use_llm then ("Mensagem de teste. Opção por não usar LLM.", false)
  else if is_human_cooldown_active last_sender last_human reference_time then
    ("Atendimento humano em andamento. A LLM ficará pausada por 5 minutos após a última resposta humana.",
      false)
  else (llm_message, true)

/-- C7. A candidate event is dropped before storage if and only if it is
tagged human-operator-sent (`who_sent = "hum"`), the conversation has a most
recent automated reply with a timestamp, that timestamp differs from the
event's by at most 20 seconds, and the trimmed texts agree; every other
candidate event is accepted. -/
theorem echo_suppression_iff (who_sent : String) (content : Option String)
    (sent_at : Int) (last_llm : Option ChatMessageRow) :
    should_store_message who_sent content sent_at last_llm = false ↔
      (who_sent = "hum"
        ∧ ∃ last_llm_msg last_llm_dt, last_llm = some last_llm_msg
          ∧ last_llm_msg.sent_at = some last_llm_dt
          ∧ |sent_at - last_llm_dt| ≤ 20
          ∧ (last_llm_msg.content.getD "").trim = (content.getD "").trim) := by
  constructor
  · intro h
    unfold should_store_message at h
    by_cases hw : who_sent ≠ "hum"
    · simp [hw] at h
    · have hw' : who_sent = "hum" := not_not.mp hw
      refine ⟨hw', ?_⟩
      cases last_llm with
      | none => simp [hw] at h
      | some l =>
        cases hs : l.sent_at with
        | none => simp [hw, hs] at h
        | some dt =>
          simp only [hw, if_false, hs] at h
          by_cases hcond : |sent_at - dt| ≤ 20
              ∧ (l.content.getD "").trim = (content.getD "").trim
          · exact ⟨l, dt, rfl, hs, hcond.1, hcond.2⟩
          · simp [hcond] at h
  · rintro ⟨hw, l, dt, rfl, hdt, h20, htrim⟩
    simp [should_store_message, hw, hdt, h20, htrim]

/-- C8. If a human-operator message was accepted at time `T` (so the
conversation's stored most recent human message is at `last_human_dt ≥ T`),
then every automated dispatch attempt whose reference time lies in
`[T, T + 5 min]` returns the fixed advisory response without invoking the LLM
processor, and the reference time used for the comparison is never moved
backward relative to the last human message's time. -/
theorem human_cooldown_suppresses_dispatch (last_sender : String)
    (content : Option String) (T last_human_dt reference_time : Int)
    (llm_message : String)
    (hT : T ≤ last_human_dt)
    (h1 : T ≤ reference_time) (h2 : reference_time ≤ T + HUMAN_COOLDOWN) :
    run_dispatch true last_sender (some ⟨content, some last_human_dt⟩)
        reference_time llm_message
      = ("Atendimento humano em andamento. A LLM ficará pausada por 5 minutos após a última resposta humana.",
          false)
    ∧ last_human_dt ≤ clampReference reference_time last_human_dt := by
  have hclamp : last_human_dt ≤ clampReference reference_time last_human_dt := by
    unfold clampReference
    by_cases hc : reference_time < last_human_dt
    · simp [hc]
    · simp only [if_neg hc]
      omega
  have hactive : is_human_cooldown_active last_sender
      (some ⟨content, some last_human_dt⟩) reference_time = true := by
    unfold is_human_cooldown_active
    by_cases hsender : last_sender = "hum"
    · simp [hsender]
    · simp only [if_neg hsender]
      rw [decide_eq_true_iff]
      unfold clampReference HUMAN_COOLDOWN
      by_cases hc : reference_time < last_human_dt
      · simp only [if_pos hc]
        omega
      · simp only [if_neg hc]
        unfold HUMAN_COOLDOWN at h2
        omega
  refine ⟨?_, hclamp⟩
  unfold run_dispatch
  rw [hactive]
  simp

/-- Closed witness for `human_cooldown_suppresses_dispatch`: spec scenario 4 —
human message at `T = 200`, dispatch attempt at `t = 450` (250 s later). -/
theorem human_cooldown_suppresses_dispatch_witness :
    ((200 : Int) ≤ 200 ∧ (200 : Int) ≤ 450 ∧ (450 : Int) ≤ 200 + HUMAN_COOLDOWN)
    ∧ (run_dispatch true "usr" (some ⟨some "oi", some 200⟩) 450 "resposta"
        = ("Atendimento humano em andamento. A LLM ficará pausada por 5 minutos após a última resposta humana.",
            false)
      ∧ (200 : Int) ≤ clampReference 450 200) :=
  ⟨⟨by decide, by decide, by decide⟩,
    human_cooldown_suppresses_dispatch "usr" (some "oi") 200 200 450 "resposta"
      (by decide) (by decide) (by decide)⟩

/-! ### `src/repositories/redis/redis_crud.py` — RedisDatabase

The Redis client holds the `"webhook"` sorted set: a member (the serialized
JSON payload, modelled as `String`) mapped to a score (arrival timestamp).
`zadd` inserts the member or, when already present, updates its score
(standard Redis ZADD semantics); `zrange 0 -1 withscores` lists entries in
score order. -/

/-- Function `str_to_bool`: `value.lower() in ("true", "1", "yes")`. -/
def str_to_bool (value : String) : Bool :=
  (["true", "1", "yes"] : List String).contains value.toLower

abbrev ZSet : Type := List (String × Int)

/-- Redis ZADD on the `webhook` sorted set. -/
def zadd (s : ZSet) (member : String) (score : Int) : ZSet :=
  ainsert s member score

/-- Redis ZREM on the `webhook` sorted set. -/
def zrem (s : ZSet) (member : String) : ZSet :=
  aerase s member

/-- Redis `ZRANGE 0 -1 WITHSCORES`: ascending score, ties by member. -/
def zrange_withscores (s : ZSet) : ZSet :=
  List.insertionSort (fun a b => a.2 < b.2 ∨ (a.2 = b.2 ∧ a.1 ≤ b.1)) s

/-- The store object.  `handler` is unset when `__init__` swallowed a
construction failure. -/
structure RedisDatabase where
  handler : Option ZSet
deriving DecidableEq, Repr

/-- Constructor `__init__`: `redis.Redis(...)` is wrapped in `try/except Exception`; on
failure the exception is logged (`logger.info`) and execution continues, so
no error reaches the caller and `handler` stays unset. -/
def redisDatabase_init (connect : Except String ZSet) : RedisDatabase :=
  match connect with
  | Except.ok client => { handler := some client }
  | Except.error _ => { handler := none }

/-- Reading `self.handler` raises `AttributeError` when it was never set. -/
def getHandler (db : RedisDatabase) : Except String ZSet :=
  match db.handler with
  | some c => Except.ok c
  | none => Except.error "AttributeError: RedisDatabase has no attribute handler"

/-- Method `save`: zadd of member `json.dumps(data_dict)` with score `datetime_now`
on the `webhook` sorted set; `serialize` stands for `json.dumps(data.model_dump())`. -/
def redis_save (db : RedisDatabase)
    (serialize : InternalMessageModel → String)
    (data : InternalMessageModel) (datetime_now : Int) :
    Except String RedisDatabase := do
  let c ← getHandler db
  Except.ok { handler := some (zadd c (serialize data) datetime_now) }

/-- Method `retrieve_messages`: `self.handler.zrange("webhook", 0, -1, withscores=True)`. -/
def redis_retrieve_messages (db : RedisDatabase) : Except String ZSet := do
  let c ← getHandler db
  Except.ok (zrange_withscores c)

/-- Method `delete_message`: `self.handler.zrem("webhook", json.dumps(message))`. -/
def redis_delete_message (db : RedisDatabase)
    (serialize : InternalMessageModel → String)
    (message : InternalMessageModel) : Except String RedisDatabase := do
  let c ← getHandler db
  Except.ok { handler := some (zrem c (serialize message)) }

/-- C9 (evaluation of the code at the failing input). A connectivity
failure raised while constructing the client is caught by `__init__` and only
logged: the constructor returns normally and no error propagates to the
caller, refuting "a connectivity failure during Event Store construction
propagates to the caller as an explicit error; it is never caught".  The
`handler` attribute is left unset, so a later operation raises
`AttributeError` (second conjunct) — the broken store does not masquerade as
an empty queue, but the construction failure itself is silently swallowed. -/
theorem construction_failure_swallowed :
    redisDatabase_init (Except.error "ConnectionError: connection refused")
      = { handler := none }
    ∧ redis_retrieve_messages
        (redisDatabase_init (Except.error "ConnectionError: connection refused"))
      = Except.error "AttributeError: RedisDatabase has no attribute handler" :=
  ⟨rfl, rfl⟩

theorem countP_eq_zero_of_alookup_none {V : Type} (m : List (String × V))
    (k : String) (h : alookup m k = none) :
    m.countP (fun p => p.1 == k) = 0 := by
  induction m with
  | nil => simp
  | cons p ps ih =>
    simp only [alookup_cons] at h
    by_cases hp : p.1 = k
    · simp [hp] at h
    · rw [if_neg hp] at h
      simp [List.countP_cons, hp, ih h]

theorem countP_ainsert_self {V : Type} (m : List (String × V)) (k : String)
    (v : V) (hnd : nodupKeys m) :
    (ainsert m k v).countP (fun p => p.1 == k) = 1 := by
  induction m with
  | nil => simp [ainsert]
  | cons p ps ih =>
    by_cases hp : p.1 = k
    · have he : ainsert (p :: ps) k v = (k, v) :: ps := by simp [ainsert, hp]
      rw [he, List.countP_cons]
      have hz : alookup ps k = none := by
        rw [alookup_eq_none_iff]
        exact hp ▸ (List.nodup_cons.mp hnd).1
      simp [countP_eq_zero_of_alookup_none ps k hz]
    · have he : ainsert (p :: ps) k v = p :: ainsert ps k v := by
        simp [ainsert, hp]
      rw [he, List.countP_cons]
      simp [hp, ih (List.nodup_cons.mp hnd).2]

/-- C10. Two `save` calls whose events serialize to byte-identical JSON
leave exactly one sorted-set entry for that payload, and its stored arrival
score is the *later* call's timestamp: a redelivered identical event does not
queue a second entry, it resets the existing entry's arrival time (and with
it the group's debounce clock, since `time_search` reads these scores). -/
theorem duplicate_save_resets_timestamp (client : ZSet)
    (serialize : InternalMessageModel → String)
    (a b : InternalMessageModel) (t1 t2 : Int)
    (hnd : nodupKeys client) (hser : serialize a = serialize b) :
    ∃ db', (do
        let db1 ← redis_save { handler := some client } serialize a t1
        redis_save db1 serialize b t2) = Except.ok db'
      ∧ ∃ s', db'.handler = some s'
        ∧ s'.countP (fun p => p.1 == serialize a) = 1
        ∧ alookup s' (serialize a) = some t2
        ∧ nodupKeys s' := by
  refine ⟨{ handler := some (zadd (zadd client (serialize a) t1) (serialize b) t2) },
    rfl, zadd (zadd client (serialize a) t1) (serialize b) t2, rfl, ?_, ?_, ?_⟩
  · rw [← hser]
    exact countP_ainsert_self _ _ _ (nodupKeys_ainsert _ _ _ hnd)
  · rw [← hser]
    exact alookup_ainsert_self _ _ _
  · exact nodupKeys_ainsert _ _ _ (nodupKeys_ainsert _ _ _ hnd)

/-- Closed witness for `duplicate_save_resets_timestamp`: the same message
redelivered, saved at timestamps 100 and 160 into an empty store. -/
theorem duplicate_save_resets_timestamp_witness :
    ∃ db', (do
        let db1 ← redis_save { handler := some [] } (fun m => m.phone) mA 100
        redis_save db1 (fun m => m.phone) mA 160) = Except.ok db'
      ∧ ∃ s', db'.handler = some s'
        ∧ s'.countP (fun p => p.1 == (fun m : InternalMessageModel => m.phone) mA) = 1
        ∧ alookup s' ((fun m : InternalMessageModel => m.phone) mA) = some 160
        ∧ nodupKeys s' :=
  duplicate_save_resets_timestamp [] (fun m => m.phone) mA mA 100 160
    (by decide) rfl

end Emme7
